import Mathlib

/-!
Verification of the CONIKS-style persistent authenticated dictionary
(cloniks, a coniks-go fork): a shallow embedding of the Merkle prefix
tree, signed tree roots (STRs) and the directory facade, with theorems
checking the natural-language specification against the code.

Modelling conventions:
* Go `[]byte` is `List Nat` (entries are byte values).  Where the
  distinction between a `nil` slice and a non-nil empty slice matters
  (the cached child hashes of interior nodes), the field is
  `Option Bytes` with `none` playing the role of `nil`.
* The external hash primitive (BLAKE3) is out of scope for the sources;
  functions that hash take an explicit `digest : List Bytes → Bytes`
  argument standing for `hashed.Digest`.  Likewise the keyed commitment
  hash and the Ed25519 signer are passed as function arguments.
* The random salt drawn by `hashed.NewCommit` is passed explicitly
  (explicit state passing for the process CSPRNG).
* Go `uint64` / `uint32` integers are `Nat` with wrap-around written
  out as `% 2 ^ 64` where the code can overflow.  The native-endianness
  integer encodings are modelled little-endian.
-/

/-- Go `[]byte`: a byte string, each entry a byte value. -/
abbrev Bytes : Type := List Nat

/-- The type of the external hash primitive `hashed.Digest`:
it hashes the concatenation of the given byte strings. -/
abbrev DigestFn : Type := List Bytes → Bytes

namespace conv

/-- Go `conv.UInt32ToBytes`: a `uint32` as 4 bytes in native endianness
(modelled little-endian, the byte order of the reference platforms). -/
def UInt32ToBytes (n : Nat) : Bytes :=
  [n % 256, n / 256 % 256, n / 256 ^ 2 % 256, n / 256 ^ 3 % 256]

/-- Go `conv.ULongToBytes` (via `LongToBytes`): a `uint64` as 8 bytes in
native endianness (modelled little-endian). -/
def ULongToBytes (n : Nat) : Bytes :=
  [n % 256, n / 256 % 256, n / 256 ^ 2 % 256, n / 256 ^ 3 % 256,
   n / 256 ^ 4 % 256, n / 256 ^ 5 % 256, n / 256 ^ 6 % 256, n / 256 ^ 7 % 256]

/-- Go `conv.GetNthBit`: bit `offset` of the byte string, reading each
byte most-significant bit first (`bs[offset/8] & (1 << (7 - offset%8))`). -/
def GetNthBit (bs : Bytes) (offset : Nat) : Bool :=
  Nat.testBit (bs.getD (offset / 8) 0) (7 - offset % 8)

/-- Modelled from the spec: `conv.ToBits` is called by the tree code but its
definition is not among the provided sources.  Per the spec, at depth `d` bit
`d` of the index selects left/right, and the in-source `GetNthBit` reads bits
most-significant-first within each byte; `ToBits` expands a byte string into
that bit sequence (`(ToBits bs).getD i false = GetNthBit bs i` for `i` in
range). -/
def ToBits (bs : Bytes) : List Bool :=
  bs.flatMap fun b => (List.range 8).map fun k => Nat.testBit b (7 - k)

/-- Modelled from the spec: `conv.ToBytes` is called by the tree code
(for the index of a fresh empty node) but its definition is not among the
provided sources.  Per the spec the empty-node index is the full 32-byte
encoding of the bit-prefix, bits packed most-significant-first and padded
with zeros on the right. -/
def ToBytes (bits : List Bool) : Bytes :=
  (List.range 32).map fun i =>
    (((List.range 8).map fun k =>
      if bits.getD (8 * i + k) false then 2 ^ (7 - k) else 0)).sum

end conv

namespace hashed

/-- Go `hashed.Commit`: a cryptographic commitment, a salt together with
the keyed hash of the committed values. -/
structure Commit where
  Salt : Bytes
  Hash : Bytes
  deriving Repr, DecidableEq

/-- The type of the external keyed commitment hash `hashed.CommitHash`
(keyed BLAKE3 over the concatenated values, keyed by the salt). -/
abbrev CommitHashFn : Type := List Bytes → Bytes → Bytes

/-- Go `hashed.NewCommit`: draws a random salt and commits to the values.
The salt (the only randomness) and the keyed hash are explicit arguments. -/
def NewCommit (commitHash : CommitHashFn) (salt : Bytes) (values : List Bytes) : Commit :=
  { Salt := salt, Hash := commitHash values salt }

end hashed

namespace merkletree

/-- Go `merkletree.SignedTreeRoot`.  The associated data `Ad` is an
interface whose only operation is `Bytes()`, so it is modelled by the
byte string `AdBytes` it serializes to.  (The in-memory `tree` pointer is
not part of any serialized or compared data and is omitted.) -/
structure SignedTreeRoot where
  TreeHash : Bytes
  Epoch : Nat
  PreviousEpoch : Nat
  PreviousSTRHash : Bytes
  Signature : Bytes
  AdBytes : Bytes
  deriving Repr, DecidableEq

/-- Go `SignedTreeRoot.SerializeInternal`, following the source's append
chain: epoch, previous epoch (only when `Epoch > 0`), tree hash, previous
STR hash. -/
def SignedTreeRoot.SerializeInternal (str : SignedTreeRoot) : Bytes :=
  let strBytes : Bytes := []
  let strBytes := strBytes ++ conv.ULongToBytes str.Epoch
  let strBytes := if str.Epoch > 0 then strBytes ++ conv.ULongToBytes str.PreviousEpoch
    else strBytes
  let strBytes := strBytes ++ str.TreeHash
  let strBytes := strBytes ++ str.PreviousSTRHash
  strBytes

/-- Go `SignedTreeRoot.Bytes`: the serialization used for signing and for
signature verification. -/
def SignedTreeRoot.Bytes (str : SignedTreeRoot) : Bytes :=
  str.SerializeInternal ++ str.AdBytes

/-- Go `merkletree.NewSTR`: builds the STR and signs `str.Bytes()` with the
given signing function (the Ed25519 signer is external, passed as `sign`). -/
def NewSTR (sign : Bytes → Bytes) (adBytes : Bytes) (treeHash : Bytes)
    (epoch : Nat) (prevHash : Bytes) : SignedTreeRoot :=
  let prevEpoch := if epoch = 0 then 0 else epoch - 1
  let str : SignedTreeRoot :=
    { TreeHash := treeHash, Epoch := epoch, PreviousEpoch := prevEpoch,
      PreviousSTRHash := prevHash, Signature := [], AdBytes := adBytes }
  { str with Signature := sign str.Bytes }

/-- Successor in Go `uint64` arithmetic (`savedSTR.Epoch + 1` wraps). -/
def uint64Succ (n : Nat) : Nat := (n + 1) % 2 ^ 64

/-- Go `SignedTreeRoot.VerifyHashChain`: hashes the saved STR's signature and
compares epochs and the previous-STR hash. -/
def SignedTreeRoot.VerifyHashChain (digest : DigestFn)
    (str savedSTR : SignedTreeRoot) : Bool :=
  let hash := digest [savedSTR.Signature]
  str.PreviousEpoch == savedSTR.Epoch &&
    str.Epoch == uint64Succ savedSTR.Epoch &&
    hash == str.PreviousSTRHash

end merkletree

namespace merkletree

/-- Go `EmptyBranchIdentifier` = `'E'` (0x45): domain separation for empty
node hashes. -/
def EmptyBranchIdentifier : Nat := 69

/-- Go `LeafIdentifier` = `'L'` (0x4C): domain separation for user leaf
node hashes. -/
def LeafIdentifier : Nat := 76

/-- The three node variants of the Merkle prefix tree (`interiorNode`,
`userLeafNode`, `emptyNode`), as a sum.  The parent back-pointer of the Go
structs is used only to rewire the tree during insertion, which the
functional embedding performs by recursion (returning the replacement
subtree to the caller), so it is not a field here.  A Go `string` key is
an immutable byte string and is modelled by its bytes.  The cached child
hashes of an interior node distinguish Go `nil` (`none`, marked for
recomputation) from an allocated slice (`some`). -/
inductive MerkleNode where
  | interior (level : Nat) (leftChild rightChild : MerkleNode)
      (leftHash rightHash : Option Bytes)
  | userLeaf (level : Nat) (key : Bytes) (value : Bytes) (index : Bytes)
      (commitment : hashed.Commit)
  | empty (level : Nat) (index : Bytes)
  deriving Repr, DecidableEq

/-- Go `copyOfBs`: `make([]byte, len(bs))` + `copy` always returns a
non-nil slice with the source's contents, so a `nil` source becomes a
non-nil empty slice. -/
def copyOfBs (bs : Option Bytes) : Option Bytes :=
  some (bs.getD [])

/-- Go `newInteriorNode`: a fresh interior node at the given level whose
children are two empty nodes at `level + 1`, their indices encoding the
prefix extended by a 0 bit (left) and a 1 bit (right); both cached child
hashes start out `nil`. -/
def newInteriorNode (level : Nat) (prefBits : List Bool) : MerkleNode :=
  .interior level
    (.empty (level + 1) (conv.ToBytes (prefBits ++ [false])))
    (.empty (level + 1) (conv.ToBytes (prefBits ++ [true])))
    none none

/-- Go `isEmpty`: whether the node's kind is `emptyNodeKind`. -/
def isEmptyNode : MerkleNode → Bool
  | .empty _ _ => true
  | _ => false

/-- The Go `hash` methods of the three node kinds.  An interior node uses a
cached child hash when it is non-nil and recomputes the child's hash
otherwise (the Go method also stores the recomputed value back into the
cache, which changes no observable hash); a user leaf hashes the leaf
domain separator, the tree nonce, its index, its level as 4 bytes and its
commitment's hash; an empty node hashes the empty-branch domain separator,
the tree nonce, its index and its level as 4 bytes. -/
def MerkleNode.hash (digest : DigestFn) (nonce : Bytes) : MerkleNode → Bytes
  | .interior _ lc rc lh rh =>
      digest [lh.getD (lc.hash digest nonce), rh.getD (rc.hash digest nonce)]
  | .userLeaf level _ _ index commitment =>
      digest [[LeafIdentifier], nonce, index, conv.UInt32ToBytes level, commitment.Hash]
  | .empty level index =>
      digest [[EmptyBranchIdentifier], nonce, index, conv.UInt32ToBytes level]

/-- The Go `clone` methods of the three node kinds: children are cloned
recursively, cached hashes and byte slices go through `copyOfBs`
(the commitment struct is copied by value). -/
def MerkleNode.clone : MerkleNode → MerkleNode
  | .interior level lc rc lh rh =>
      .interior level lc.clone rc.clone (copyOfBs lh) (copyOfBs rh)
  | .userLeaf level key value index commitment =>
      .userLeaf level key value index commitment
  | .empty level index => .empty level index

/-- Go `merkletree.MerkleTree`: nonce, root node, and the lazily computed
root hash (`nil` until `recomputeHash`). -/
structure MerkleTree where
  nonce : Bytes
  root : MerkleNode
  hash : Option Bytes
  deriving Repr, DecidableEq

/-- Go `NewMerkleTree`: an empty tree whose root is an interior node with
two empty children (the nonce, drawn from the CSPRNG, is an explicit
argument). -/
def NewMerkleTree (nonce : Bytes) : MerkleTree :=
  { nonce := nonce, root := newInteriorNode 0 [], hash := none }

/-- Go `MerkleTree.insertNode`'s loop, as fuel-indexed recursion (`none`
models the `ErrInvalidTree` panic and fuel exhaustion; the Go loop can only
fail to terminate if the new index collides with an existing leaf's index
beyond the available bits).  Walking right clears the parent's right cached
hash, walking left the left one; an empty slot is replaced by the new leaf
at `depth + 1`; a leaf with the same index is overwritten in place keeping
its level; a leaf with a different index is pushed down under a fresh
interior node on the side selected by bit `depth` of its index, and the
loop re-runs at the same depth on that interior node. -/
def insertNodeGo (indexBits : List Bool) (key : Bytes) (value : Bytes)
    (index : Bytes) (commitment : hashed.Commit) :
    Nat → Nat → MerkleNode → Option MerkleNode
  | 0, _, _ => none
  | fuel + 1, depth, .userLeaf lvl k0 v0 idx c0 =>
      if idx = index then
        some (.userLeaf lvl key value index commitment)
      else
        let pref := indexBits.take depth
        let displaced : MerkleNode := .userLeaf (depth + 1) k0 v0 idx c0
        let ni : MerkleNode :=
          if conv.GetNthBit idx depth then
            .interior depth (.empty (depth + 1) (conv.ToBytes (pref ++ [false])))
              displaced none none
          else
            .interior depth displaced
              (.empty (depth + 1) (conv.ToBytes (pref ++ [true]))) none none
        insertNodeGo indexBits key value index commitment fuel depth ni
  | fuel + 1, depth, .interior lvl lc rc lh rh =>
      if indexBits.getD depth false then
        if isEmptyNode rc then
          some (.interior lvl lc (.userLeaf (depth + 1) key value index commitment) lh none)
        else
          match insertNodeGo indexBits key value index commitment fuel (depth + 1) rc with
          | none => none
          | some rc' => some (.interior lvl lc rc' lh none)
      else
        if isEmptyNode lc then
          some (.interior lvl (.userLeaf (depth + 1) key value index commitment) rc none rh)
        else
          match insertNodeGo indexBits key value index commitment fuel (depth + 1) lc with
          | none => none
          | some lc' => some (.interior lvl lc' rc none rh)
  | _ + 1, _, .empty _ _ => none

/-- Go `MerkleTree.Set`: builds the commitment for `(key, value)` (the
fresh random salt is an explicit argument) and inserts the new leaf at
`index`.  The fuel bound covers the deepest possible walk: each bit of the
index costs at most one split plus one descend iteration. -/
def MerkleTree.Set (commitHash : hashed.CommitHashFn) (salt : Bytes)
    (m : MerkleTree) (index : Bytes) (key : Bytes) (value : Bytes) :
    Option MerkleTree :=
  let commitment := hashed.NewCommit commitHash salt [key, value]
  let indexBits := conv.ToBits index
  match insertNodeGo indexBits key value index commitment
      (2 * indexBits.length + 2) 0 m.root with
  | none => none
  | some root' => some { m with root := root' }

/-- Go `MerkleTree.recomputeHash`: stores the root's hash in the tree. -/
def MerkleTree.recomputeHash (digest : DigestFn) (m : MerkleTree) : MerkleTree :=
  { m with hash := some (m.root.hash digest m.nonce) }

/-- The root hash a tree recomputes (`m.root.hash(m)`). -/
def MerkleTree.rootHash (digest : DigestFn) (m : MerkleTree) : Bytes :=
  m.root.hash digest m.nonce

/-- Go `MerkleTree.Clone`: copies the nonce and stored hash through
`copyOfBs` and deep-clones the node structure. -/
def MerkleTree.Clone (m : MerkleTree) : MerkleTree :=
  { nonce := m.nonce, root := m.root.clone, hash := copyOfBs m.hash }

end merkletree

/-- A concrete executable stand-in for the external BLAKE3 digest, used to
instantiate theorems at concrete inputs: the length-prefixed flattening of
its arguments (injective as an encoding of `List Bytes`). -/
def digestM : DigestFn :=
  fun ms => ms.length :: ms.flatMap fun m => m.length :: m

/-- A concrete executable stand-in for the keyed commitment hash
`hashed.CommitHash` (keyed BLAKE3): the model digest of salt and values. -/
def commitHashM : hashed.CommitHashFn :=
  fun values salt => digestM (salt :: values)

/-- A concrete digest stand-in with the real primitive's 32-byte output
length (`hashed.HashSizeByte`). -/
def digestM32 : DigestFn :=
  fun ms => (digestM ms ++ List.replicate 32 0).take 32

/-- C3: for every tree nonce and digest function, an empty node at index
`i` and level `l` hashes to `digest(0x45, nonce, i, l as 4 bytes)`, a user
leaf with commitment hash `c` hashes to
`digest(0x4C, nonce, i, l as 4 bytes, c)`, and an interior node hashes to
`digest(leftHash, rightHash)` where each side uses the cached child hash
when present (`Option.getD`) and the recursively recomputed child hash
otherwise; the level encoding is 4 bytes long. -/
theorem node_hash_spec (digest : DigestFn) (nonce : Bytes) :
    (∀ (lvl : Nat) (idx : Bytes),
      (merkletree.MerkleNode.empty lvl idx).hash digest nonce =
        digest [[69], nonce, idx, conv.UInt32ToBytes lvl]) ∧
    (∀ (lvl : Nat) (key value idx : Bytes) (c : hashed.Commit),
      (merkletree.MerkleNode.userLeaf lvl key value idx c).hash digest nonce =
        digest [[76], nonce, idx, conv.UInt32ToBytes lvl, c.Hash]) ∧
    (∀ (lvl : Nat) (lc rc : merkletree.MerkleNode) (lh rh : Option Bytes),
      (merkletree.MerkleNode.interior lvl lc rc lh rh).hash digest nonce =
        digest [lh.getD (lc.hash digest nonce), rh.getD (rc.hash digest nonce)]) ∧
    (∀ lvl : Nat, (conv.UInt32ToBytes lvl).length = 4) := by
  refine ⟨fun lvl idx => rfl, fun lvl key value idx c => rfl,
    fun lvl lc rc lh rh => rfl, fun lvl => rfl⟩

/-- Inserting succeeds with any larger fuel bound, with the same result. -/
theorem insertNodeGo_mono (indexBits : List Bool) (key value index : Bytes)
    (c : hashed.Commit) :
    ∀ (f d : Nat) (n n' : merkletree.MerkleNode),
      merkletree.insertNodeGo indexBits key value index c f d n = some n' →
      merkletree.insertNodeGo indexBits key value index c (f + 1) d n = some n' := by
  intro f
  induction f with
  | zero => intro d n n' h; simp [merkletree.insertNodeGo] at h
  | succ f ih =>
    intro d n n' h
    cases n with
    | userLeaf lvl k0 v0 idx c0 =>
      simp only [merkletree.insertNodeGo] at h ⊢
      by_cases hidx : idx = index
      · simpa [hidx] using h
      · simp only [if_neg hidx] at h ⊢
        exact ih _ _ _ h
    | interior lvl lc rc lh rh =>
      simp only [merkletree.insertNodeGo] at h ⊢
      by_cases hdir : indexBits.getD d false
      · simp only [if_pos hdir] at h ⊢
        by_cases hemp : merkletree.isEmptyNode rc
        · simpa [hemp] using h
        · simp only [hemp, Bool.false_eq_true, if_neg] at h ⊢
          cases hrec : merkletree.insertNodeGo indexBits key value index c f (d + 1) rc with
          | none => rw [hrec] at h; exact absurd h (by simp)
          | some rc' =>
            rw [hrec] at h
            rw [ih _ _ _ hrec]
            exact h
      · simp only [if_neg hdir] at h ⊢
        by_cases hemp : merkletree.isEmptyNode lc
        · simpa [hemp] using h
        · simp only [hemp, Bool.false_eq_true, if_neg] at h ⊢
          cases hrec : merkletree.insertNodeGo indexBits key value index c f (d + 1) lc with
          | none => rw [hrec] at h; exact absurd h (by simp)
          | some lc' =>
            rw [hrec] at h
            rw [ih _ _ _ hrec]
            exact h
    | empty lvl idx => simp [merkletree.insertNodeGo] at h

/-- Inserting succeeds with any fuel bound at least as large, with the
same result. -/
theorem insertNodeGo_mono_le (indexBits : List Bool) (key value index : Bytes)
    (c : hashed.Commit) {f g : Nat} (hfg : f ≤ g) :
    ∀ {d : Nat} {n n' : merkletree.MerkleNode},
      merkletree.insertNodeGo indexBits key value index c f d n = some n' →
      merkletree.insertNodeGo indexBits key value index c g d n = some n' := by
  induction hfg with
  | refl => intro d n n' h; exact h
  | step g ih =>
    intro d n n' h
    exact insertNodeGo_mono indexBits key value index c _ _ _ _ (ih h)

/-- The fuel bound only decides success, never the value: two successful
runs agree. -/
theorem insertNodeGo_unique (indexBits : List Bool) (key value index : Bytes)
    (c : hashed.Commit) {f g d : Nat} {n n₁ n₂ : merkletree.MerkleNode}
    (h₁ : merkletree.insertNodeGo indexBits key value index c f d n = some n₁)
    (h₂ : merkletree.insertNodeGo indexBits key value index c g d n = some n₂) :
    n₂ = n₁ := by
  rcases le_total f g with hfg | hgf
  · have := insertNodeGo_mono_le indexBits key value index c hfg h₁
    rw [this] at h₂
    exact (Option.some.inj h₂).symm
  · have := insertNodeGo_mono_le indexBits key value index c hgf h₂
    rw [this] at h₁
    exact Option.some.inj h₁

/-- A successful insertion never returns an empty node. -/
theorem insertNodeGo_ne_empty (indexBits : List Bool) (key value index : Bytes)
    (c : hashed.Commit) :
    ∀ (f d : Nat) (n n' : merkletree.MerkleNode),
      merkletree.insertNodeGo indexBits key value index c f d n = some n' →
      merkletree.isEmptyNode n' = false := by
  intro f
  induction f with
  | zero => intro d n n' h; simp [merkletree.insertNodeGo] at h
  | succ f ih =>
    intro d n n' h
    cases n with
    | userLeaf lvl k0 v0 idx c0 =>
      simp only [merkletree.insertNodeGo] at h
      by_cases hidx : idx = index
      · simp only [if_pos hidx] at h
        rw [← Option.some.inj h]
        rfl
      · simp only [if_neg hidx] at h
        exact ih _ _ _ h
    | interior lvl lc rc lh rh =>
      simp only [merkletree.insertNodeGo] at h
      by_cases hdir : indexBits.getD d false
      · simp only [if_pos hdir] at h
        by_cases hemp : merkletree.isEmptyNode rc
        · simp only [if_pos hemp] at h
          rw [← Option.some.inj h]; rfl
        · simp only [hemp, Bool.false_eq_true, if_neg] at h
          cases hrec : merkletree.insertNodeGo indexBits key value index c f (d + 1) rc with
          | none => rw [hrec] at h; exact absurd h (by simp)
          | some rc' => rw [hrec] at h; rw [← Option.some.inj h]; rfl
      · simp only [if_neg hdir] at h
        by_cases hemp : merkletree.isEmptyNode lc
        · simp only [if_pos hemp] at h
          rw [← Option.some.inj h]; rfl
        · simp only [hemp, Bool.false_eq_true, if_neg] at h
          cases hrec : merkletree.insertNodeGo indexBits key value index c f (d + 1) lc with
          | none => rw [hrec] at h; exact absurd h (by simp)
          | some lc' => rw [hrec] at h; rw [← Option.some.inj h]; rfl
    | empty lvl idx => simp [merkletree.insertNodeGo] at h

/-- `isEmptyNode` on each constructor, for rewriting. -/
theorem isEmptyNode_userLeaf (lvl : Nat) (k v i : Bytes) (c : hashed.Commit) :
    merkletree.isEmptyNode (.userLeaf lvl k v i c) = false := rfl

/-- `isEmptyNode` on an interior node. -/
theorem isEmptyNode_interior (lvl : Nat) (lc rc : merkletree.MerkleNode)
    (lh rh : Option Bytes) :
    merkletree.isEmptyNode (.interior lvl lc rc lh rh) = false := rfl

/-- Re-inserting the same leaf into the result of an insertion leaves the
tree unchanged (one extra unit of fuel suffices for the re-run). -/
theorem insertNodeGo_again (indexBits : List Bool) (key value index : Bytes)
    (c : hashed.Commit) :
    ∀ (f d : Nat) (n n' : merkletree.MerkleNode),
      merkletree.insertNodeGo indexBits key value index c f d n = some n' →
      merkletree.insertNodeGo indexBits key value index c (f + 1) d n' = some n' := by
  intro f
  induction f with
  | zero => intro d n n' h; simp [merkletree.insertNodeGo] at h
  | succ f ih =>
    intro d n n' h
    cases n with
    | userLeaf lvl k0 v0 idx c0 =>
      simp only [merkletree.insertNodeGo] at h
      by_cases hidx : idx = index
      · rw [if_pos hidx] at h
        rw [← Option.some.inj h]
        simp only [merkletree.insertNodeGo]
        rw [if_pos trivial]
      · rw [if_neg hidx] at h
        exact insertNodeGo_mono indexBits key value index c _ _ _ _ (ih _ _ _ h)
    | interior lvl lc rc lh rh =>
      simp only [merkletree.insertNodeGo] at h
      by_cases hdir : indexBits.getD d false = true
      · rw [if_pos hdir] at h
        by_cases hemp : merkletree.isEmptyNode rc = true
        · rw [if_pos hemp] at h
          rw [← Option.some.inj h]
          simp only [merkletree.insertNodeGo, isEmptyNode_userLeaf]
          rw [if_pos hdir, if_neg Bool.false_ne_true, if_pos trivial]
        · rw [if_neg hemp] at h
          cases hrec : merkletree.insertNodeGo indexBits key value index c f (d + 1) rc with
          | none => rw [hrec] at h; exact absurd h (by simp)
          | some rc' =>
            rw [hrec] at h
            have h' : some (merkletree.MerkleNode.interior lvl lc rc' lh none) = some n' := h
            rw [← Option.some.inj h']
            have hne := insertNodeGo_ne_empty indexBits key value index c _ _ _ _ hrec
            have hagain := ih _ _ _ hrec
            simp only [merkletree.insertNodeGo]
            rw [if_pos hdir, if_neg (by simp [hne]), hagain]
      · rw [if_neg hdir] at h
        by_cases hemp : merkletree.isEmptyNode lc = true
        · rw [if_pos hemp] at h
          rw [← Option.some.inj h]
          simp only [merkletree.insertNodeGo, isEmptyNode_userLeaf]
          rw [if_neg hdir, if_neg Bool.false_ne_true, if_pos trivial]
        · rw [if_neg hemp] at h
          cases hrec : merkletree.insertNodeGo indexBits key value index c f (d + 1) lc with
          | none => rw [hrec] at h; exact absurd h (by simp)
          | some lc' =>
            rw [hrec] at h
            have h' : some (merkletree.MerkleNode.interior lvl lc' rc none rh) = some n' := h
            rw [← Option.some.inj h']
            have hne := insertNodeGo_ne_empty indexBits key value index c _ _ _ _ hrec
            have hagain := ih _ _ _ hrec
            simp only [merkletree.insertNodeGo]
            rw [if_neg hdir, if_neg (by simp [hne]), hagain]
    | empty lvl idx => simp [merkletree.insertNodeGo] at h

/-- Setting the same `(index, key, value)` twice with the same commitment
yields the very tree produced by setting it once. -/
theorem set_set_eq (commitHash : hashed.CommitHashFn) (salt : Bytes)
    (m : merkletree.MerkleTree) (index key value : Bytes)
    {m₁ m₂ : merkletree.MerkleTree}
    (h₁ : m.Set commitHash salt index key value = some m₁)
    (h₂ : m₁.Set commitHash salt index key value = some m₂) :
    m₂ = m₁ := by
  simp only [merkletree.MerkleTree.Set] at h₁ h₂
  cases hr₁ : merkletree.insertNodeGo (conv.ToBits index) key value index
      (hashed.NewCommit commitHash salt [key, value])
      (2 * (conv.ToBits index).length + 2) 0 m.root with
  | none => rw [hr₁] at h₁; exact absurd h₁ (by simp)
  | some r₁ =>
    rw [hr₁] at h₁
    have hm₁ : m₁ = { m with root := r₁ } := (Option.some.inj h₁).symm
    cases hr₂ : merkletree.insertNodeGo (conv.ToBits index) key value index
        (hashed.NewCommit commitHash salt [key, value])
        (2 * (conv.ToBits index).length + 2) 0 m₁.root with
    | none => rw [hr₂] at h₂; exact absurd h₂ (by simp)
    | some r₂ =>
      rw [hr₂] at h₂
      have hroot : m₁.root = r₁ := by rw [hm₁]
      rw [hroot] at hr₂
      have hagain := insertNodeGo_again (conv.ToBits index) key value index
        (hashed.NewCommit commitHash salt [key, value]) _ _ _ _ hr₁
      have hr21 : r₂ = r₁ := insertNodeGo_unique (conv.ToBits index) key value index
        (hashed.NewCommit commitHash salt [key, value]) hagain hr₂
      rw [← Option.some.inj h₂, hr21, hm₁]

/-- C4 counterexample: the claim quantifies over the fresh random salts the
two `Set` calls draw inside `hashed.NewCommit`; with distinct salts the
leaf's commitment hash differs, so the recomputed root hash after setting
`(index, key, value)` twice differs from the root hash after setting it
once (shown on a concrete tree with the executable model digest). -/
theorem set_twice_counterexample :
    (((merkletree.NewMerkleTree [5]).Set commitHashM [1] [0] [] [7]).bind
        fun m₁ => m₁.Set commitHashM [2] [0] [] [7]).map
          (merkletree.MerkleTree.rootHash digestM) ≠
      ((merkletree.NewMerkleTree [5]).Set commitHashM [1] [0] [] [7]).map
        (merkletree.MerkleTree.rootHash digestM) := by decide

/-- C4 (amended): setting the same `(index, key, value)` twice in
succession within an epoch yields the same recomputed root hash as setting
it once, provided the two `Set` calls generate the same commitment (the
same random salt); the code draws a fresh salt inside each `Set`, so with
distinct salts the hashes differ (see the counterexample). -/
theorem set_twice_rootHash (digest : DigestFn) (commitHash : hashed.CommitHashFn)
    (salt : Bytes) (m : merkletree.MerkleTree) (index key value : Bytes)
    {m₁ m₂ : merkletree.MerkleTree}
    (h₁ : m.Set commitHash salt index key value = some m₁)
    (h₂ : m₁.Set commitHash salt index key value = some m₂) :
    m₂.rootHash digest = m₁.rootHash digest := by
  rw [set_set_eq commitHash salt m index key value h₁ h₂]

/-- The tree obtained by one concrete `Set` on the fresh tree. -/
def c4m1 : merkletree.MerkleTree :=
  ((merkletree.NewMerkleTree [5]).Set commitHashM [1] [0] [] [7]).getD
    (merkletree.NewMerkleTree [5])

theorem set_twice_rootHash_witness :
    merkletree.MerkleTree.rootHash digestM c4m1 =
      merkletree.MerkleTree.rootHash digestM c4m1 :=
  set_twice_rootHash digestM commitHashM [1] (merkletree.NewMerkleTree [5])
    [0] [] [7] (by decide) (by decide)

namespace merkletree

/-- Go `ProofNode` (the terminal leaf descriptor of an authentication
path).  `Value` is `none` where the Go code leaves or sets it `nil`
(empty-node terminals and redacted different-index leaves). -/
structure ProofNode where
  Level : Nat
  Index : Bytes
  Value : Option Bytes
  IsEmpty : Bool
  Commitment : hashed.Commit
  deriving Repr, DecidableEq

/-- Go `AuthenticationPath`: tree nonce, lookup index, the sibling-hash
array per depth (root-to-leaf), and the terminal leaf descriptor. -/
structure AuthenticationPath where
  TreeNonce : Bytes
  LookupIndex : Bytes
  PrunedTree : List Bytes
  Leaf : ProofNode
  deriving Repr, DecidableEq

/-- Go `Get`'s `copy(hashArr[:], src)` into a zeroed
`[hashed.HashSizeByte]byte` array: the source truncated to 32 bytes and
zero-padded on the right (a `nil` cached hash copies nothing, leaving the
zero array). -/
def toHashArr (bs : Option Bytes) : Bytes :=
  (bs.getD [] ++ List.replicate 32 0).take 32

/-- Go `Get`'s `searchLoop`: walk from the root along the lookup bits;
going right records the interior node's left cached hash (and vice versa),
each through `toHashArr`; stops at the first non-interior node, which it
returns along with the recorded hashes. -/
def walkGet (bits : List Bool) : MerkleNode → Nat → List Bytes × MerkleNode
  | .interior _ lc rc lh rh, depth =>
      if bits.getD depth false then
        let rest := walkGet bits rc (depth + 1)
        (toHashArr lh :: rest.1, rest.2)
      else
        let rest := walkGet bits lc (depth + 1)
        (toHashArr rh :: rest.1, rest.2)
  | n, _ => ([], n)

/-- Go `MerkleTree.Get`: runs the search loop and builds the proof leaf.
A user leaf with the looked-up index keeps its value and commitment; a
different-index leaf is redacted (no value, no commitment salt); an empty
node yields an absence terminal (its commitment left at the zero value).
`none` models the `ErrInvalidTree` panics (unreachable from real trees). -/
def MerkleTree.Get (m : MerkleTree) (lookupIndex : Bytes) :
    Option AuthenticationPath :=
  let bits := conv.ToBits lookupIndex
  let w := walkGet bits m.root 0
  match w.2 with
  | .userLeaf lvl _ v idx c =>
      if idx = lookupIndex then
        some { TreeNonce := m.nonce, LookupIndex := lookupIndex, PrunedTree := w.1,
               Leaf := { Level := lvl, Index := idx, Value := some v, IsEmpty := false,
                         Commitment := c } }
      else
        some { TreeNonce := m.nonce, LookupIndex := lookupIndex, PrunedTree := w.1,
               Leaf := { Level := lvl, Index := idx, Value := none, IsEmpty := false,
                         Commitment := { Salt := [], Hash := c.Hash } } }
  | .empty lvl idx =>
      some { TreeNonce := m.nonce, LookupIndex := lookupIndex, PrunedTree := w.1,
             Leaf := { Level := lvl, Index := idx, Value := none, IsEmpty := true,
                       Commitment := { Salt := [], Hash := [] } } }
  | .interior _ _ _ _ _ => none

/-- The data-model invariant on cached hashes (spec section 3): every
interior node's cached child hashes are present and equal to the current
hash of that child.  This is the state `recomputeHash` establishes. -/
inductive CachesValid (digest : DigestFn) (nonce : Bytes) : MerkleNode → Prop where
  | userLeaf (lvl : Nat) (k v i : Bytes) (c : hashed.Commit) :
      CachesValid digest nonce (.userLeaf lvl k v i c)
  | empty (lvl : Nat) (i : Bytes) : CachesValid digest nonce (.empty lvl i)
  | interior (lvl : Nat) (lc rc : MerkleNode)
      (hl : CachesValid digest nonce lc) (hr : CachesValid digest nonce rc) :
      CachesValid digest nonce
        (.interior lvl lc rc (some (lc.hash digest nonce)) (some (rc.hash digest nonce)))

/-- The spec's description of `lookup` (its words, for comparison with the
code's `walkGet`): walk from the root along the index's bits, accumulating
at each step the current (recomputed) hash of the sibling on the opposite
side of the taken direction, in root-to-leaf order. -/
def siblingHashes (digest : DigestFn) (nonce : Bytes) (bits : List Bool) :
    MerkleNode → Nat → List Bytes
  | .interior _ lc rc _ _, depth =>
      if bits.getD depth false then
        lc.hash digest nonce :: siblingHashes digest nonce bits rc (depth + 1)
      else
        rc.hash digest nonce :: siblingHashes digest nonce bits lc (depth + 1)
  | _, _ => []

end merkletree

/-- On a tree with valid caches and a 32-byte digest, the search loop
records exactly the current sibling hashes. -/
theorem walkGet_eq_siblingHashes (digest : DigestFn) (nonce : Bytes)
    (bits : List Bool) (hlen : ∀ ms, (digest ms).length = 32)
    {n : merkletree.MerkleNode} (hv : merkletree.CachesValid digest nonce n) :
    ∀ depth : Nat,
      (merkletree.walkGet bits n depth).1 =
        merkletree.siblingHashes digest nonce bits n depth := by
  induction hv with
  | userLeaf lvl k v i c => intro depth; rfl
  | empty lvl i => intro depth; rfl
  | interior lvl lc rc hl hr ihl ihr =>
    intro depth
    simp only [merkletree.walkGet, merkletree.siblingHashes]
    have harr : ∀ h : Bytes, h.length = 32 → merkletree.toHashArr (some h) = h := by
      intro h hh
      simp only [merkletree.toHashArr, Option.getD_some]
      rw [← hh, List.take_left]
    have hashLen : ∀ n : merkletree.MerkleNode,
        (n.hash digest nonce).length = 32 := by
      intro n
      cases n <;> exact hlen _
    by_cases hdir : bits.getD depth false = true
    · rw [if_pos hdir, if_pos hdir]
      exact congrArg₂ _ (harr _ (hashLen _)) (ihr (depth + 1))
    · rw [if_neg hdir, if_neg hdir]
      exact congrArg₂ _ (harr _ (hashLen _)) (ihl (depth + 1))

/-- C5 counterexample: the claim fails on a tree whose cached hashes have
been cleared by a `Set` (a "dirty" tree): the search loop copies the `nil`
cache, recording an all-zero 32-byte entry instead of the sibling's
current hash.  Concrete instance with the 32-byte model digest. -/
def c5L : merkletree.MerkleNode := .empty 1 (conv.ToBytes [false])

/-- The right empty child of the two-node example trees. -/
def c5R : merkletree.MerkleNode := .empty 1 (conv.ToBytes [true])

/-- A tree whose root caches are `nil` (as after an insertion, before
`recomputeHash`). -/
def c5dirty : merkletree.MerkleTree :=
  { nonce := [5], root := .interior 0 c5L c5R none none, hash := none }

/-- A tree whose root caches hold the children's current hashes (as after
`recomputeHash` with the 32-byte model digest). -/
def c5clean : merkletree.MerkleTree :=
  { nonce := [5],
    root := .interior 0 c5L c5R (some (c5L.hash digestM32 [5]))
      (some (c5R.hash digestM32 [5])),
    hash := none }

theorem get_prunedTree_counterexample :
    ((c5dirty.Get [0]).map merkletree.AuthenticationPath.PrunedTree) ≠
      some (merkletree.siblingHashes digestM32 [5] (conv.ToBits [0]) c5dirty.root 0) := by
  decide

/-- C5 (amended): for every tree satisfying the cached-hash invariant
(caches present and correct, the state after `recomputeHash`) and a
32-byte digest, the `PrunedTree` sequence of the authentication path
returned by `Get(lookupIndex)` equals the current hash of the sibling of
the node walked through at each depth (the child opposite bit `d` of the
lookup index), in root-to-leaf order.  On a tree with cleared ("dirty")
caches the code instead records all-zero entries (see the
counterexample). -/
theorem get_prunedTree_spec (digest : DigestFn) (m : merkletree.MerkleTree)
    (lookupIndex : Bytes) (hlen : ∀ ms, (digest ms).length = 32)
    (hv : merkletree.CachesValid digest m.nonce m.root)
    {ap : merkletree.AuthenticationPath}
    (hget : m.Get lookupIndex = some ap) :
    ap.PrunedTree =
      merkletree.siblingHashes digest m.nonce (conv.ToBits lookupIndex) m.root 0 := by
  have hw := walkGet_eq_siblingHashes digest m.nonce (conv.ToBits lookupIndex) hlen hv 0
  simp only [merkletree.MerkleTree.Get] at hget
  split at hget
  · split at hget
    · rw [← Option.some.inj hget]
      exact hw
    · rw [← Option.some.inj hget]
      exact hw
  · rw [← Option.some.inj hget]
    exact hw
  · exact absurd hget (by simp)

/-- The authentication path `Get` returns on the concrete clean tree. -/
def c5ap : merkletree.AuthenticationPath :=
  (c5clean.Get [0]).getD
    { TreeNonce := [], LookupIndex := [], PrunedTree := [],
      Leaf := { Level := 0, Index := [], Value := none, IsEmpty := true,
                Commitment := { Salt := [], Hash := [] } } }

theorem get_prunedTree_spec_witness :
    c5ap.PrunedTree =
      merkletree.siblingHashes digestM32 [5] (conv.ToBits [0]) c5clean.root 0 :=
  get_prunedTree_spec digestM32 c5clean [0]
    (fun ms => by simp [digestM32, List.length_take])
    (merkletree.CachesValid.interior 0 c5L c5R
      (by unfold c5L; exact merkletree.CachesValid.empty 1 (conv.ToBytes [false]))
      (by unfold c5R; exact merkletree.CachesValid.empty 1 (conv.ToBytes [true])))
    (by decide)

/-- C10: `copyOfBs` maps a `nil` slice to a non-nil empty slice, so
cloning an interior node whose cached child hash is `nil` (marked dirty)
yields a node whose cache is a non-nil empty slice; consequently there is
a tree with a dirty cache (the concrete `c5dirty`) whose clone recomputes
a different root hash than the original, because the interior hash treats
the empty slice as a valid cached child hash and skips recomputing that
child. -/
theorem clone_dirty_cache_spec :
    merkletree.copyOfBs none = some ([] : Bytes) ∧
    (∀ (lvl : Nat) (lc rc : merkletree.MerkleNode) (rh : Option Bytes),
      (merkletree.MerkleNode.interior lvl lc rc none rh).clone =
        .interior lvl lc.clone rc.clone (some []) (merkletree.copyOfBs rh)) ∧
    c5dirty.Clone.rootHash digestM ≠ c5dirty.rootHash digestM := by
  refine ⟨rfl, fun lvl lc rc rh => rfl, by decide⟩

/-- C1: for all signed tree roots `a` and `b`, `b.VerifyHashChain(a)` returns
true iff `b.PreviousSTRHash` is the digest of `a.Signature`,
`b.PreviousEpoch = a.Epoch`, and `b.Epoch = a.Epoch + 1` (the `+ 1` being Go
`uint64` addition, which wraps modulo `2 ^ 64`). -/
theorem verifyHashChain_iff (digest : DigestFn) (a b : merkletree.SignedTreeRoot) :
    b.VerifyHashChain digest a = true ↔
      (b.PreviousSTRHash = digest [a.Signature] ∧ b.PreviousEpoch = a.Epoch ∧
        b.Epoch = (a.Epoch + 1) % 2 ^ 64) := by
  simp only [merkletree.SignedTreeRoot.VerifyHashChain, merkletree.uint64Succ,
    Bool.and_eq_true, beq_iff_eq]
  constructor
  · rintro ⟨⟨h1, h2⟩, h3⟩
    exact ⟨h3.symm, h1, h2⟩
  · rintro ⟨h1, h2, h3⟩
    exact ⟨⟨h2, h3⟩, h1.symm⟩

/-- C2: the byte string signed by `NewSTR` (and checked at verification
time) is `str.Bytes()`, and for every STR this serialization is
`ULong(epoch) ‖ ULong(previousEpoch) ‖ treeHash ‖ previousSTRHash ‖ ad.Bytes()`
when `epoch > 0`, the `ULong(previousEpoch)` block being dropped when
`epoch = 0`; `ULong` is an 8-byte integer encoding. -/
theorem str_bytes_spec :
    (∀ str : merkletree.SignedTreeRoot,
      str.Bytes = conv.ULongToBytes str.Epoch ++
        (if 0 < str.Epoch then conv.ULongToBytes str.PreviousEpoch else []) ++
        str.TreeHash ++ str.PreviousSTRHash ++ str.AdBytes) ∧
    (∀ (sign : Bytes → Bytes) (adBytes treeHash : Bytes) (epoch : Nat) (prevHash : Bytes),
      (merkletree.NewSTR sign adBytes treeHash epoch prevHash).Signature =
        sign (merkletree.NewSTR sign adBytes treeHash epoch prevHash).Bytes) ∧
    (∀ n : Nat, (conv.ULongToBytes n).length = 8) := by
  refine ⟨?_, ?_, ?_⟩
  · intro str
    simp only [merkletree.SignedTreeRoot.Bytes, merkletree.SignedTreeRoot.SerializeInternal,
      gt_iff_lt, List.nil_append, List.append_assoc]
    by_cases h : 0 < str.Epoch <;> simp [h]
  · intro sign adBytes treeHash epoch prevHash
    rfl
  · intro n
    rfl

namespace protocol

/-- The protocol error codes carried by directory responses
(`ReqSuccess`, `ReqNameExisted`, `ReqNameNotFound`, `ErrMalformedMessage`,
`ErrDirectory`). -/
inductive ErrorCode where
  | ReqSuccess
  | ReqNameExisted
  | ReqNameNotFound
  | ErrMalformedMessage
  | ErrDirectory
  deriving Repr, DecidableEq

end protocol

namespace directory

/-- Go `directory.TemporaryBinding`: private index, value, and signature. -/
structure TemporaryBinding where
  Index : Bytes
  Value : Bytes
  Signature : Bytes
  deriving Repr, DecidableEq

/-- Go `KeyLookupRequest`. -/
structure KeyLookupRequest where
  Username : String
  deriving Repr, DecidableEq

/-- Go `RegistrationRequest`. -/
structure RegistrationRequest where
  Username : String
  Key : Bytes
  deriving Repr, DecidableEq

/-- Go `MonitoringRequest`. -/
structure MonitoringRequest where
  Username : String
  StartEpoch : Nat
  EndEpoch : Nat
  deriving Repr, DecidableEq

/-- Modelled from the spec: the protocol response constructors
(`NewErrorResponse`, `NewKeyLookupProof`, `NewRegistrationProof`,
`NewMonitoringProof`) live in the protocol message code, which is not
among the provided sources; per the spec the directory returns "a tagged
response" carrying the proof payload and one of the error codes.  The
directory-level STR is its embedded `merkletree.SignedTreeRoot`. -/
inductive Response where
  | error (e : protocol.ErrorCode)
  | keyLookupProof (ap : merkletree.AuthenticationPath)
      (str : merkletree.SignedTreeRoot) (tb : Option TemporaryBinding)
      (code : protocol.ErrorCode)
  | registrationProof (ap : merkletree.AuthenticationPath)
      (str : merkletree.SignedTreeRoot) (tb : Option TemporaryBinding)
      (code : protocol.ErrorCode)
  | monitoringProof (aps : List merkletree.AuthenticationPath)
      (strs : List merkletree.SignedTreeRoot)
  deriving Repr, DecidableEq

/-- Go `Tree.KeyLookup`.  The PAD is abstracted by its `Lookup` function
(`none` models a lookup error), the latest STR by `latestSTR`, and the
`tbs` map by a function into `Option TemporaryBinding`. -/
def KeyLookup (lookup : String → Option merkletree.AuthenticationPath)
    (latestSTR : merkletree.SignedTreeRoot)
    (tbs : String → Option TemporaryBinding)
    (req : KeyLookupRequest) : Response :=
  if req.Username.length ≤ 0 then .error .ErrMalformedMessage
  else
    match lookup req.Username with
    | none => .error .ErrDirectory
    | some ap =>
      if ap.LookupIndex = ap.Leaf.Index then
        .keyLookupProof ap latestSTR none .ReqSuccess
      else
        match tbs req.Username with
        | some tb => .keyLookupProof ap latestSTR (some tb) .ReqSuccess
        | none => .keyLookupProof ap latestSTR none .ReqNameNotFound

/-- Go `Tree.Register`, with the PAD abstracted: `lookup` is `pad.Lookup`,
`newTB` is `d.NewTB`, and `padSetOk` is whether `pad.Set` succeeds.  The
result carries the response, whether a `pad.Set` call was made, and the
`tbs` map after the call. -/
def Register (lookup : String → Option merkletree.AuthenticationPath)
    (latestSTR : merkletree.SignedTreeRoot)
    (newTB : String → Bytes → TemporaryBinding) (padSetOk : Bool)
    (tbs : String → Option TemporaryBinding)
    (req : RegistrationRequest) :
    Response × Bool × (String → Option TemporaryBinding) :=
  if req.Username.length ≤ 0 ∨ req.Key.length ≤ 0 then
    (.error .ErrMalformedMessage, false, tbs)
  else
    match lookup req.Username with
    | none => (.error .ErrDirectory, false, tbs)
    | some ap =>
      if ap.LookupIndex = ap.Leaf.Index then
        (.registrationProof ap latestSTR none .ReqNameExisted, false, tbs)
      else
        match tbs req.Username with
        | some tb =>
            (.registrationProof ap latestSTR (some tb) .ReqNameExisted, false, tbs)
        | none =>
          let tb := newTB req.Username req.Key
          if padSetOk then
            (.registrationProof ap latestSTR (some tb) .ReqSuccess, true,
              fun u => if u = req.Username then some tb else tbs u)
          else
            (.error .ErrDirectory, true, tbs)

/-- Go `Tree.Monitor`'s epoch loop: look up the name in each epoch of the
list in order, collecting authentication paths and STRs; a failed lookup
aborts with an error (`none`). -/
def monitorLoop (lookupInEpoch : String → Nat → Option merkletree.AuthenticationPath)
    (getSTR : Nat → merkletree.SignedTreeRoot) (name : String) :
    List Nat →
      Option (List merkletree.AuthenticationPath × List merkletree.SignedTreeRoot)
  | [] => some ([], [])
  | ep :: rest =>
      match lookupInEpoch name ep with
      | none => none
      | some ap =>
        match monitorLoop lookupInEpoch getSTR name rest with
        | none => none
        | some (aps, strs) => some (ap :: aps, getSTR ep :: strs)

/-- Go `Tree.Monitor`: validates the request (non-empty name, start epoch
within the directory, start ≤ end), clamps the end epoch to the latest
epoch, and loops over the epoch range.  `lookupInEpoch` abstracts
`pad.LookupInEpoch`, `getSTR` abstracts `pad.GetSTR`. -/
def Monitor (lookupInEpoch : String → Nat → Option merkletree.AuthenticationPath)
    (getSTR : Nat → merkletree.SignedTreeRoot) (latestEpoch : Nat)
    (req : MonitoringRequest) : Response :=
  if req.Username.length ≤ 0 ∨ latestEpoch < req.StartEpoch ∨
      req.EndEpoch < req.StartEpoch then
    .error .ErrMalformedMessage
  else
    let endEp := if latestEpoch < req.EndEpoch then latestEpoch else req.EndEpoch
    match monitorLoop lookupInEpoch getSTR req.Username
        (List.range' req.StartEpoch (endEp + 1 - req.StartEpoch)) with
    | none => .error .ErrDirectory
    | some (aps, strs) => .monitoringProof aps strs

end directory

/-- A Go `len(s) <= 0` test on a string holds exactly for the empty
string. -/
theorem string_len_le_zero_iff (s : String) : s.length ≤ 0 ↔ s = "" := by
  constructor
  · intro h
    cases s with
    | mk data =>
      have hd : data.length = 0 := Nat.le_zero.mp h
      have hnil : data = [] := List.length_eq_zero.mp hd
      rw [hnil]
  · intro h
    rw [h]
    decide

/-- C6: for every KeyLookup request: an empty username yields
`ErrMalformedMessage`; otherwise, when the PAD lookup returns a path whose
leaf index equals the lookup index, the response is `ReqSuccess` with that
(inclusion) proof and no TB; otherwise, when a temporary binding for the
username exists, the response is `ReqSuccess` with the (absence) proof and
that TB; otherwise the response is `ReqNameNotFound` with the (absence)
proof. -/
theorem keyLookup_spec (lookup : String → Option merkletree.AuthenticationPath)
    (latestSTR : merkletree.SignedTreeRoot)
    (tbs : String → Option directory.TemporaryBinding)
    (req : directory.KeyLookupRequest) (ap : merkletree.AuthenticationPath) :
    (req.Username = "" →
      directory.KeyLookup lookup latestSTR tbs req = .error .ErrMalformedMessage) ∧
    (req.Username ≠ "" → lookup req.Username = some ap →
      ((ap.LookupIndex = ap.Leaf.Index →
        directory.KeyLookup lookup latestSTR tbs req =
          .keyLookupProof ap latestSTR none .ReqSuccess) ∧
      (ap.LookupIndex ≠ ap.Leaf.Index →
        (∀ tb, tbs req.Username = some tb →
          directory.KeyLookup lookup latestSTR tbs req =
            .keyLookupProof ap latestSTR (some tb) .ReqSuccess) ∧
        (tbs req.Username = none →
          directory.KeyLookup lookup latestSTR tbs req =
            .keyLookupProof ap latestSTR none .ReqNameNotFound)))) := by
  constructor
  · intro h
    have hc : req.Username.length ≤ 0 := (string_len_le_zero_iff _).mpr h
    simp [directory.KeyLookup, hc]
  · intro hu hl
    have hc : ¬ req.Username.length ≤ 0 := fun hc => hu ((string_len_le_zero_iff _).mp hc)
    refine ⟨fun hinc => ?_, fun hninc => ⟨fun tb htb => ?_, fun htb => ?_⟩⟩
    · simp [directory.KeyLookup, hc, hl, hinc]
    · simp [directory.KeyLookup, hc, hl, hninc, htb]
    · simp [directory.KeyLookup, hc, hl, hninc, htb]

/-- A trivial concrete STR for instantiating the directory theorems. -/
def strEx : merkletree.SignedTreeRoot :=
  { TreeHash := [], Epoch := 0, PreviousEpoch := 0, PreviousSTRHash := [],
    Signature := [], AdBytes := [] }

/-- A concrete absence proof: lookup index differs from the leaf index. -/
def c6ap : merkletree.AuthenticationPath :=
  { TreeNonce := [], LookupIndex := [0], PrunedTree := [],
    Leaf := { Level := 1, Index := [1], Value := none, IsEmpty := false,
              Commitment := { Salt := [], Hash := [] } } }

theorem keyLookup_spec_witness :
    directory.KeyLookup (fun _ => some c6ap) strEx (fun _ => none)
      { Username := "alice" } =
      .keyLookupProof c6ap strEx none .ReqNameNotFound :=
  (((keyLookup_spec (fun _ => some c6ap) strEx (fun _ => none)
      { Username := "alice" } c6ap).2 (by decide) rfl).2 (by decide)).2 rfl

/-- A concrete inclusion proof: lookup index equals the leaf index. -/
def c7apInc : merkletree.AuthenticationPath :=
  { TreeNonce := [], LookupIndex := [2], PrunedTree := [],
    Leaf := { Level := 1, Index := [2], Value := some [9], IsEmpty := false,
              Commitment := { Salt := [], Hash := [] } } }

/-- A concrete TB generator standing for `d.NewTB`. -/
def c7newTB : String → Bytes → directory.TemporaryBinding :=
  fun _ v => { Index := [2], Value := v, Signature := [] }

/-- C7 counterexample: a Register request whose name is already bound in
the tree but whose key is empty fails the well-formedness check first, so
the response is `ErrMalformedMessage`, not `ReqNameExisted`. -/
theorem register_existing_counterexample :
    (directory.Register (fun _ => some c7apInc) strEx c7newTB true
      (fun _ => none) { Username := "a", Key := [] }).1 =
      .error .ErrMalformedMessage := by decide

/-- C7 (amended): for every well-formed Register request (non-empty
username and non-empty key) whose name is already bound in the tree or
already present in the TBs map, the response is `ReqNameExisted` (with the
inclusion proof in the first case, or with the absence proof plus the
existing TB in the second), no `pad.Set` call is made, and the TBs map is
returned unmodified.  (A request with an empty key returns
`ErrMalformedMessage` even when the name is bound — see the
counterexample.) -/
theorem register_existing (lookup : String → Option merkletree.AuthenticationPath)
    (latestSTR : merkletree.SignedTreeRoot)
    (newTB : String → Bytes → directory.TemporaryBinding) (padSetOk : Bool)
    (tbs : String → Option directory.TemporaryBinding)
    (req : directory.RegistrationRequest) (ap : merkletree.AuthenticationPath)
    (hu : req.Username ≠ "") (hk : req.Key ≠ [])
    (hl : lookup req.Username = some ap) :
    (ap.LookupIndex = ap.Leaf.Index →
      directory.Register lookup latestSTR newTB padSetOk tbs req =
        (.registrationProof ap latestSTR none .ReqNameExisted, false, tbs)) ∧
    (ap.LookupIndex ≠ ap.Leaf.Index → ∀ tb, tbs req.Username = some tb →
      directory.Register lookup latestSTR newTB padSetOk tbs req =
        (.registrationProof ap latestSTR (some tb) .ReqNameExisted, false, tbs)) := by
  have hcu : ¬ req.Username.length ≤ 0 := fun hc => hu ((string_len_le_zero_iff _).mp hc)
  have hck : ¬ req.Key.length ≤ 0 := fun hc => hk (List.length_eq_zero.mp (Nat.le_zero.mp hc))
  have hguard : ¬ (req.Username.length ≤ 0 ∨ req.Key.length ≤ 0) := by
    rintro (h | h)
    · exact hcu h
    · exact hck h
  constructor
  · intro hinc
    simp only [directory.Register, hl, if_neg hguard]
    simp [hinc]
  · intro hninc tb htb
    simp only [directory.Register, hl, if_neg hguard]
    simp [hninc, htb]

theorem register_existing_witness :
    directory.Register (fun _ => some c7apInc) strEx c7newTB true
      (fun _ => none) { Username := "a", Key := [9] } =
      (.registrationProof c7apInc strEx none .ReqNameExisted, false,
        fun _ => none) :=
  (register_existing (fun _ => some c7apInc) strEx c7newTB true (fun _ => none)
    { Username := "a", Key := [9] } c7apInc (by decide) (by decide) rfl).1 (by decide)

/-- The epoch loop collects one path and one STR per epoch when every
lookup in the range succeeds. -/
theorem monitorLoop_some
    (lookupInEpoch : String → Nat → Option merkletree.AuthenticationPath)
    (getSTR : Nat → merkletree.SignedTreeRoot) (name : String) :
    ∀ eps : List Nat, (∀ ep ∈ eps, lookupInEpoch name ep ≠ none) →
      ∃ aps strs,
        directory.monitorLoop lookupInEpoch getSTR name eps = some (aps, strs) ∧
        aps.length = eps.length ∧ strs.length = eps.length := by
  intro eps
  induction eps with
  | nil => intro h; exact ⟨[], [], rfl, rfl, rfl⟩
  | cons ep rest ih =>
    intro h
    have hep := h ep (List.mem_cons_self ep rest)
    cases hlk : lookupInEpoch name ep with
    | none => exact absurd hlk hep
    | some ap =>
      obtain ⟨aps, strs, hrec, ha, hstr⟩ :=
        ih (fun e he => h e (List.mem_cons_of_mem _ he))
      refine ⟨ap :: aps, getSTR ep :: strs, ?_, by simp [ha], by simp [hstr]⟩
      simp only [directory.monitorLoop, hlk, hrec]

/-- A trivial concrete authentication path for the Monitor theorems. -/
def c8ap : merkletree.AuthenticationPath :=
  { TreeNonce := [], LookupIndex := [], PrunedTree := [],
    Leaf := { Level := 0, Index := [], Value := none, IsEmpty := true,
              Commitment := { Salt := [], Hash := [] } } }

/-- C8 counterexample: a well-formed request with `s = 0 ≤ e = 3` against
a directory whose latest epoch is `0` gets its end epoch clamped to `0`
and receives `1` path and STR, not `e − s + 1 = 4`. -/
theorem monitor_count_counterexample :
    directory.Monitor (fun _ _ => some c8ap) (fun _ => strEx) 0
        { Username := "a", StartEpoch := 0, EndEpoch := 3 } =
      .monitoringProof [c8ap] [strEx] ∧ [c8ap].length ≠ 3 - 0 + 1 :=
  ⟨by decide, by decide⟩

/-- C8 (amended): for every well-formed Monitor request (non-empty
username, `s ≤` the latest epoch, `s ≤ e`) all of whose per-epoch lookups
succeed, the response contains exactly `e' − s + 1` authentication paths
and exactly `e' − s + 1` STRs, where `e' = min e latestEpoch` (the code
clamps the requested end epoch to the latest epoch; with `e` beyond the
latest epoch the count is smaller than the claimed `e − s + 1` — see the
counterexample). -/
theorem monitor_count
    (lookupInEpoch : String → Nat → Option merkletree.AuthenticationPath)
    (getSTR : Nat → merkletree.SignedTreeRoot) (latestEpoch : Nat)
    (req : directory.MonitoringRequest)
    (hu : req.Username ≠ "") (hs : req.StartEpoch ≤ latestEpoch)
    (hse : req.StartEpoch ≤ req.EndEpoch)
    (hok : ∀ ep, req.StartEpoch ≤ ep → ep ≤ min req.EndEpoch latestEpoch →
      lookupInEpoch req.Username ep ≠ none) :
    ∃ aps strs,
      directory.Monitor lookupInEpoch getSTR latestEpoch req =
        .monitoringProof aps strs ∧
      aps.length = min req.EndEpoch latestEpoch - req.StartEpoch + 1 ∧
      strs.length = min req.EndEpoch latestEpoch - req.StartEpoch + 1 := by
  have hcu : ¬ req.Username.length ≤ 0 := fun hc => hu ((string_len_le_zero_iff _).mp hc)
  have hguard : ¬ (req.Username.length ≤ 0 ∨ latestEpoch < req.StartEpoch ∨
      req.EndEpoch < req.StartEpoch) := by
    rintro (h | h | h)
    · exact hcu h
    · omega
    · omega
  have hEnd : (if latestEpoch < req.EndEpoch then latestEpoch else req.EndEpoch) =
      min req.EndEpoch latestEpoch := by
    rcases Nat.lt_or_ge latestEpoch req.EndEpoch with h | h
    · rw [if_pos h, Nat.min_eq_right (Nat.le_of_lt h)]
    · rw [if_neg (Nat.not_lt.mpr h), Nat.min_eq_left h]
  obtain ⟨aps, strs, hloop, ha, hstr⟩ :=
    monitorLoop_some lookupInEpoch getSTR req.Username
      (List.range' req.StartEpoch
        (min req.EndEpoch latestEpoch + 1 - req.StartEpoch))
      (by
        intro ep hep
        rw [List.mem_range'_1] at hep
        exact hok ep hep.1 (by omega))
  refine ⟨aps, strs, ?_, ?_, ?_⟩
  · simp only [directory.Monitor, hEnd]
    rw [if_neg hguard, hloop]
  · rw [ha, List.length_range']
    omega
  · rw [hstr, List.length_range']
    omega

theorem monitor_count_witness :
    ∃ aps strs,
      directory.Monitor (fun _ _ => some c8ap) (fun _ => strEx) 1
          { Username := "a", StartEpoch := 0, EndEpoch := 5 } =
        .monitoringProof aps strs ∧
      aps.length = min 5 1 - 0 + 1 ∧ strs.length = min 5 1 - 0 + 1 :=
  monitor_count (fun _ _ => some c8ap) (fun _ => strEx) 1
    { Username := "a", StartEpoch := 0, EndEpoch := 5 }
    (by decide) (by decide) (by decide)
    (fun ep _ _ => Option.some_ne_none c8ap)

namespace heap

/-- A heap cell: one Go node struct, with pointer fields (`parent`,
children) as addresses.  This store-passing model is used for the
aliasing/frame properties of `Clone` and `Set`, which the functional
embedding cannot express. -/
inductive HNode where
  | interior (parent : Option Nat) (level : Nat) (leftChild rightChild : Nat)
      (leftHash rightHash : Option Bytes)
  | userLeaf (parent : Option Nat) (level : Nat) (key value index : Bytes)
      (commitment : hashed.Commit)
  | empty (parent : Option Nat) (level : Nat) (index : Bytes)
  deriving Repr, DecidableEq

/-- The parent pointer of a cell. -/
def parentOf : HNode → Option Nat
  | .interior p _ _ _ _ _ => p
  | .userLeaf p _ _ _ _ _ => p
  | .empty p _ _ => p

/-- The child pointers of a cell. -/
def childrenOf : HNode → List Nat
  | .interior _ _ lc rc _ _ => [lc, rc]
  | _ => []

/-- The heap: a partial store of cells and the next fresh address. -/
structure Heap where
  mem : Nat → Option HNode
  next : Nat

/-- Allocate a fresh cell (Go `&struct{...}`), returning its address. -/
def Heap.alloc (h : Heap) (n : HNode) : Heap × Nat :=
  ({ mem := fun a => if a = h.next then some n else h.mem a, next := h.next + 1 },
    h.next)

/-- Overwrite the cell at an existing address (Go assignment through a
pointer). -/
def Heap.write (h : Heap) (a : Nat) (n : HNode) : Heap :=
  { mem := fun x => if x = a then some n else h.mem x, next := h.next }

/-- Allocated addresses are below `next`. -/
def Heap.WF (h : Heap) : Prop := ∀ y, h.next ≤ y → h.mem y = none

/-- A Go `MerkleTree` struct in the heap model: the nonce and stored root
hash live in the struct itself; `root` is a pointer. -/
structure HTree where
  nonce : Bytes
  root : Nat
  hash : Option Bytes

/-- The Go `clone` methods on the heap: an interior node allocates its
copy (cached hashes through `copyOfBs`), clones both children with the
copy as parent, and points the copy at them; leaves and empty nodes
allocate fresh copies with the given parent.  `none` models the
`ErrInvalidTree` panic (nil child) and fuel exhaustion. -/
def cloneNode : Nat → Heap → Nat → Option Nat → Option (Heap × Nat)
  | 0, _, _, _ => none
  | fuel + 1, h, a, parent =>
    match h.mem a with
    | none => none
    | some (.interior _ lvl lc rc lh rh) =>
        let al := h.alloc (.interior parent lvl 0 0
          (merkletree.copyOfBs lh) (merkletree.copyOfBs rh))
        match cloneNode fuel al.1 lc (some al.2) with
        | none => none
        | some (h2, nl) =>
          match cloneNode fuel h2 rc (some al.2) with
          | none => none
          | Option.some (h3, nr) =>
            some (h3.write al.2 (.interior parent lvl nl nr
              (merkletree.copyOfBs lh) (merkletree.copyOfBs rh)), al.2)
    | some (.userLeaf _ lvl k v i c) =>
        some (h.alloc (.userLeaf parent lvl k v i c))
    | some (.empty _ lvl i) =>
        some (h.alloc (.empty parent lvl i))

/-- Go `MerkleTree.Clone` on the heap: fresh nonce and hash copies in the
struct, deep clone of the node graph (`m.root.clone(nil)`). -/
def cloneTree (fuel : Nat) (h : Heap) (t : HTree) : Option (Heap × HTree) :=
  match cloneNode fuel h t.root none with
  | none => none
  | some (h', r) =>
      some (h', { nonce := t.nonce, root := r, hash := merkletree.copyOfBs t.hash })

/-- Go `newInteriorNode` on the heap: allocates the two empty branches
(at `level + 1`, with the prefix extended by a 0 bit on the left and a 1
bit on the right) and the interior node pointing at them, then wires the
branches' parent pointers to the new interior node.  Returns the new
interior node's address. -/
def newInteriorNodeH (h : Heap) (parent : Option Nat) (level : Nat)
    (prefBits : List Bool) : Heap × Nat :=
  let a1 := h.alloc (.empty none (level + 1) (conv.ToBytes (prefBits ++ [false])))
  let a2 := a1.1.alloc (.empty none (level + 1) (conv.ToBytes (prefBits ++ [true])))
  let a3 := a2.1.alloc (.interior parent level a1.2 a2.2 none none)
  let h4 := ((a3.1.write a1.2 (.empty (some a3.2) (level + 1)
      (conv.ToBytes (prefBits ++ [false])))).write a2.2
      (.empty (some a3.2) (level + 1) (conv.ToBytes (prefBits ++ [true]))))
  (h4, a3.2)

/-- The split step of Go `insertNode` (the `userLeafNodeKind` case with a
different index): `newInteriorNode` creates the interior node with the old
leaf's parent as parent and the walked prefix; the displaced leaf replaces
the branch on the side of bit `depth` of its index (a field assignment on
the new interior cell) and is pushed down to `depth + 1` with the new
interior node as parent; finally the old leaf's parent (read from its
parent field, as the source does) has its matching child pointer rewired
to the new interior node.  Returns the new interior node's address; `none`
models the panics (parent cell not an interior node). -/
def splitLeaf (indexBits : List Bool) (depth : Nat) (h : Heap) (a p : Nat)
    (k0 v0 idx : Bytes) (c0 : hashed.Commit) : Option (Heap × Nat) :=
  let ni := newInteriorNodeH h (some p) depth (indexBits.take depth)
  match ni.1.mem ni.2 with
  | some (.interior npar nlvl ncl ncr nlh nrh) =>
    let h5 := if conv.GetNthBit idx depth then
        ni.1.write ni.2 (.interior npar nlvl ncl a nlh nrh)
      else
        ni.1.write ni.2 (.interior npar nlvl a ncr nlh nrh)
    let h6 := h5.write a (.userLeaf (some ni.2) (depth + 1) k0 v0 idx c0)
    match h6.mem p with
    | some (.interior pp plvl plc prc plh prh) =>
        some ((if plc = a then
            h6.write p (.interior pp plvl ni.2 prc plh prh)
          else
            h6.write p (.interior pp plvl plc ni.2 plh prh)), ni.2)
    | _ => none
  | _ => none

/-- Go `MerkleTree.insertNode` on the heap, mutating cells in place like
the source: the walk clears the parent-side cached hash, replaces an empty
child with the pre-allocated new leaf `la`, overwrites a leaf with the
same index in place, and on a split runs `splitLeaf` and re-runs at the
same depth on the new interior node. -/
def insertH (indexBits : List Bool) (key value index : Bytes)
    (c : hashed.Commit) (la : Nat) :
    Nat → Nat → Heap → Nat → Option Heap
  | 0, _, _, _ => none
  | fuel + 1, depth, h, a =>
    match h.mem a with
    | none => none
    | some (.empty _ _ _) => none
    | some (.userLeaf par lvl k0 v0 idx c0) =>
        if idx = index then
          some (h.write a (.userLeaf par lvl key value index c))
        else
          match par with
          | none => none
          | some p =>
            match splitLeaf indexBits depth h a p k0 v0 idx c0 with
            | none => none
            | some hni => insertH indexBits key value index c la fuel depth hni.1 hni.2
    | some (.interior par lvl lc rc lh rh) =>
        if indexBits.getD depth false then
          let h1 := h.write a (.interior par lvl lc rc lh none)
          match h1.mem rc with
          | some (.empty _ _ _) =>
              some ((h1.write a (.interior par lvl lc la lh none)).write la
                (.userLeaf (some a) (depth + 1) key value index c))
          | some _ => insertH indexBits key value index c la fuel (depth + 1) h1 rc
          | none => none
        else
          let h1 := h.write a (.interior par lvl lc rc none rh)
          match h1.mem lc with
          | some (.empty _ _ _) =>
              some ((h1.write a (.interior par lvl la rc none rh)).write la
                (.userLeaf (some a) (depth + 1) key value index c))
          | some _ => insertH indexBits key value index c la fuel (depth + 1) h1 lc
          | none => none

/-- Go `MerkleTree.Set` on the heap: builds the commitment (salt explicit)
and the local `toAdd` leaf (a fresh cell, linked in or left unreferenced),
then runs the insertion from the tree's root.  The tree struct itself
(nonce, root pointer, stored hash) is not modified. -/
def SetH (commitHash : hashed.CommitHashFn) (salt : Bytes) (h : Heap)
    (t : HTree) (index key value : Bytes) : Option Heap :=
  let commitment := hashed.NewCommit commitHash salt [key, value]
  let indexBits := conv.ToBits index
  let al := h.alloc (.userLeaf none 0 key value index commitment)
  insertH indexBits key value index commitment al.2
    (2 * indexBits.length + 2) 0 al.1 t.root

/-- A sequence of `Set` operations (salt, index, key, value) applied to
the tree rooted at `t.root`. -/
def applySets (commitHash : hashed.CommitHashFn) (h : Heap) (t : HTree) :
    List (Bytes × Bytes × Bytes × Bytes) → Option Heap
  | [] => some h
  | (salt, index, key, value) :: rest =>
      match SetH commitHash salt h t index key value with
      | none => none
      | some h' => applySets commitHash h' t rest

/-- The observable leaf data (level, key, value, index, commitment) of
every user leaf reachable from an address, left to right (fuel-bounded
traversal of the cell graph). -/
def leafList (h : Heap) : Nat → Nat → List (Nat × Bytes × Bytes × Bytes × hashed.Commit)
  | 0, _ => []
  | fuel + 1, a =>
    match h.mem a with
    | some (.interior _ _ lc rc _ _) => leafList h fuel lc ++ leafList h fuel rc
    | some (.userLeaf _ lvl k v i c) => [(lvl, k, v, i, c)]
    | _ => []

/-- The recomputed root hash of the node graph at an address (the heap
version of the `hash` methods; fuel-bounded). -/
def hashH (digest : DigestFn) (nonce : Bytes) (h : Heap) : Nat → Nat → Bytes
  | 0, _ => []
  | fuel + 1, a =>
    match h.mem a with
    | some (.interior _ _ lc rc lh rh) =>
        digest [lh.getD (hashH digest nonce h fuel lc),
          rh.getD (hashH digest nonce h fuel rc)]
    | some (.userLeaf _ lvl _ _ i c) =>
        digest [[merkletree.LeafIdentifier], nonce, i, conv.UInt32ToBytes lvl, c.Hash]
    | some (.empty _ lvl i) =>
        digest [[merkletree.EmptyBranchIdentifier], nonce, i, conv.UInt32ToBytes lvl]
    | none => []

/-- Safety of the region outside `P`: every cell at a ¬`P` address has
allocated ¬`P` children and a ¬`P` parent.  The insertion algorithm only
ever writes ¬`P` addresses when this holds, because every address it
touches is found through child pointers, parent pointers, the fresh
allocator, or the pre-allocated leaf. -/
def CellsSafe (P : Nat → Prop) (h : Heap) : Prop :=
  ∀ x cell, ¬ P x → h.mem x = some cell →
    (∀ z ∈ childrenOf cell, ¬ P z ∧ z < h.next) ∧
    (∀ q, parentOf cell = some q → ¬ P q)

/-- Closure of the region `Q`: children of `Q`-cells are in `Q`. -/
def RegionClosed (Q : Nat → Prop) (h : Heap) : Prop :=
  ∀ x cell, Q x → h.mem x = some cell → ∀ z ∈ childrenOf cell, Q z

end heap

namespace heap

/-- Content safety of one cell relative to the protected region: children
outside the region and allocated, parent outside the region. -/
def CellSafe (P : Nat → Prop) (h : Heap) (n : HNode) : Prop :=
  (∀ z ∈ childrenOf n, ¬ P z ∧ z < h.next) ∧ (∀ q, parentOf n = some q → ¬ P q)

theorem mem_write (h : Heap) (a : Nat) (n : HNode) (x : Nat) :
    (h.write a n).mem x = if x = a then some n else h.mem x := rfl

theorem next_write (h : Heap) (a : Nat) (n : HNode) : (h.write a n).next = h.next := rfl

theorem mem_alloc (h : Heap) (n : HNode) (x : Nat) :
    (h.alloc n).1.mem x = if x = h.next then some n else h.mem x := rfl

theorem next_alloc (h : Heap) (n : HNode) : (h.alloc n).1.next = h.next + 1 := rfl

theorem wf_write {h : Heap} (hwf : h.WF) {a : Nat} (ha : a < h.next) (n : HNode) :
    (h.write a n).WF := by
  intro y hy
  rw [mem_write]
  rw [next_write] at hy
  rw [if_neg (show y ≠ a by omega)]
  exact hwf y hy

theorem wf_alloc {h : Heap} (hwf : h.WF) (n : HNode) : (h.alloc n).1.WF := by
  intro y hy
  rw [mem_alloc]
  rw [next_alloc] at hy
  rw [if_neg (show y ≠ h.next by omega)]
  exact hwf y (by omega)

theorem lt_next_of_mem {h : Heap} (hwf : h.WF) {a : Nat} {cell : HNode}
    (hm : h.mem a = some cell) : a < h.next := by
  by_contra hge
  rw [hwf a (Nat.le_of_not_lt hge)] at hm
  exact Option.noConfusion hm

theorem cellSafe_mono {P : Nat → Prop} {h h' : Heap} (hnext : h.next ≤ h'.next)
    {n : HNode} (hn : CellSafe P h n) : CellSafe P h' n :=
  ⟨fun z hz => ⟨(hn.1 z hz).1, Nat.lt_of_lt_of_le (hn.1 z hz).2 hnext⟩, hn.2⟩

theorem cellsSafe_write {P : Nat → Prop} {h : Heap} (hs : CellsSafe P h)
    {n : HNode} (hn : CellSafe P h n) (a : Nat) : CellsSafe P (h.write a n) := by
  intro x cell hx hm
  rw [mem_write] at hm
  by_cases hxa : x = a
  · rw [if_pos hxa] at hm
    obtain rfl := Option.some.inj hm
    exact hn
  · rw [if_neg hxa] at hm
    exact hs x cell hx hm

theorem cellsSafe_alloc {P : Nat → Prop} {h : Heap} (hs : CellsSafe P h)
    {n : HNode} (hn : CellSafe P h n) : CellsSafe P (h.alloc n).1 := by
  intro x cell hx hm
  rw [mem_alloc] at hm
  have hmono : h.next ≤ (h.alloc n).1.next := by rw [next_alloc]; omega
  by_cases hxa : x = h.next
  · rw [if_pos hxa] at hm
    obtain rfl := Option.some.inj hm
    exact cellSafe_mono hmono hn
  · rw [if_neg hxa] at hm
    exact cellSafe_mono hmono (hs x cell hx hm)

end heap

/-- `newInteriorNodeH` writes only fresh cells: old cells are unchanged,
the allocator advances by 3, well-formedness and region safety are
preserved, and the returned interior node sits at `h.next + 2` with its
empty branches at `h.next` and `h.next + 1`. -/
theorem newInteriorNodeH_props (P : Nat → Prop) (h : heap.Heap)
    (parent : Option Nat) (level : Nat) (prefBits : List Bool)
    (hwf : h.WF) (hs : heap.CellsSafe P h) (hPb : ∀ y, P y → y < h.next)
    (hpar : ∀ q, parent = some q → ¬ P q) :
    (∀ x, x < h.next →
      (heap.newInteriorNodeH h parent level prefBits).1.mem x = h.mem x) ∧
    (heap.newInteriorNodeH h parent level prefBits).1.next = h.next + 3 ∧
    (heap.newInteriorNodeH h parent level prefBits).1.WF ∧
    heap.CellsSafe P (heap.newInteriorNodeH h parent level prefBits).1 ∧
    (heap.newInteriorNodeH h parent level prefBits).2 = h.next + 2 ∧
    (heap.newInteriorNodeH h parent level prefBits).1.mem (h.next + 2) =
      some (.interior parent level h.next (h.next + 1) none none) := by
  refine ⟨?_, ?_, ?_, ?_, ?_, ?_⟩
  · intro x hx
    simp only [heap.newInteriorNodeH, heap.Heap.alloc, heap.Heap.write]
    split_ifs <;> first | rfl | omega
  · simp only [heap.newInteriorNodeH, heap.Heap.alloc, heap.Heap.write]
    try omega
  · intro y hy
    simp only [heap.newInteriorNodeH, heap.Heap.alloc, heap.Heap.write] at hy ⊢
    split_ifs <;> first | exact hwf y (by omega) | omega
  · intro x cell hx hm
    simp only [heap.newInteriorNodeH, heap.Heap.alloc, heap.Heap.write] at hm ⊢
    split_ifs at hm with h1 h2 h3
    · obtain rfl := Option.some.inj hm
      refine ⟨by simp [heap.childrenOf], ?_⟩
      intro q hq
      obtain rfl := Option.some.inj hq
      intro hP
      exact absurd (hPb _ hP) (by omega)
    · obtain rfl := Option.some.inj hm
      refine ⟨by simp [heap.childrenOf], ?_⟩
      intro q hq
      obtain rfl := Option.some.inj hq
      intro hP
      exact absurd (hPb _ hP) (by omega)
    · obtain rfl := Option.some.inj hm
      refine ⟨?_, ?_⟩
      · intro z hz
        simp only [heap.childrenOf, List.mem_cons, List.mem_singleton] at hz
        rcases hz with rfl | rfl | hz
        · exact ⟨fun hP => absurd (hPb _ hP) (by omega), by omega⟩
        · exact ⟨fun hP => absurd (hPb _ hP) (by omega), by omega⟩
        · exact absurd hz (List.not_mem_nil _)
      · exact hpar
    · obtain ⟨hc, hq⟩ := hs x cell hx hm
      exact ⟨fun z hz => ⟨(hc z hz).1, by have := (hc z hz).2; omega⟩, hq⟩
  · simp only [heap.newInteriorNodeH, heap.Heap.alloc, heap.Heap.write]
  · simp only [heap.newInteriorNodeH, heap.Heap.alloc, heap.Heap.write]
    split_ifs <;> first | rfl | omega


/-- Frame facts for the two writes the split performs after
`newInteriorNode`: linking the displaced leaf into the new interior cell
and pushing the leaf down. -/
theorem writeTwo_frame (P : Nat → Prop) (h N : heap.Heap) (t a : Nat)
    (c1 L : heap.HNode)
    (hfr : ∀ x, x < h.next → N.mem x = h.mem x)
    (hnx : N.next = h.next + 3) (hwfN : N.WF) (hsN : heap.CellsSafe P N)
    (hPb : ∀ y, P y → y < h.next)
    (htn : t < N.next) (htP : ∀ x, P x → x ≠ t)
    (haN : a < h.next) (haP : ∀ x, P x → x ≠ a)
    (hc1 : heap.CellSafe P N c1) (hcL : heap.CellSafe P (N.write t c1) L) :
    (∀ x, P x → ((N.write t c1).write a L).mem x = h.mem x) ∧
    ((N.write t c1).write a L).next = h.next + 3 ∧
    ((N.write t c1).write a L).WF ∧ heap.CellsSafe P ((N.write t c1).write a L) := by
  refine ⟨?_, ?_, ?_, ?_⟩
  · intro x hPx
    rw [heap.mem_write, if_neg (haP x hPx), heap.mem_write, if_neg (htP x hPx)]
    exact hfr x (hPb x hPx)
  · rw [heap.next_write, heap.next_write, hnx]
  · apply heap.wf_write
    · exact heap.wf_write hwfN htn _
    · rw [heap.next_write, hnx]
      omega
  · exact heap.cellsSafe_write (heap.cellsSafe_write hsN hc1 t) hcL a

/-- Frame facts for the final write of the split: rewiring the parent's
matching child pointer to the fresh interior node at `t`. -/
theorem parentRewire_frame (P : Nat → Prop) (h H6 : heap.Heap) (p t a : Nat)
    (pp : Option Nat) (plvl plc prc : Nat) (plh prh : Option Bytes)
    (hfr6 : ∀ x, P x → H6.mem x = h.mem x)
    (hnx6 : h.next ≤ H6.next) (hwf6 : H6.WF) (hs6 : heap.CellsSafe P H6)
    (hp : ¬ P p) (ht : ¬ P t) (htn : t < H6.next)
    (heq2 : H6.mem p = some (.interior pp plvl plc prc plh prh)) :
    (∀ x, P x → (if plc = a then H6.write p (.interior pp plvl t prc plh prh)
        else H6.write p (.interior pp plvl plc t plh prh)).mem x = h.mem x) ∧
    h.next ≤ (if plc = a then H6.write p (.interior pp plvl t prc plh prh)
        else H6.write p (.interior pp plvl plc t plh prh)).next ∧
    (if plc = a then H6.write p (.interior pp plvl t prc plh prh)
        else H6.write p (.interior pp plvl plc t plh prh)).WF ∧
    heap.CellsSafe P (if plc = a then H6.write p (.interior pp plvl t prc plh prh)
        else H6.write p (.interior pp plvl plc t plh prh)) := by
  obtain ⟨hc6, hq6⟩ := hs6 p _ hp heq2
  have hpn : p < H6.next := heap.lt_next_of_mem hwf6 heq2
  by_cases hplc : plc = a
  · rw [if_pos hplc]
    refine ⟨?_, ?_, ?_, ?_⟩
    · intro x hPx
      have hxp : x ≠ p := fun e => hp (e ▸ hPx)
      rw [heap.mem_write, if_neg hxp]
      exact hfr6 x hPx
    · rw [heap.next_write]
      exact hnx6
    · exact heap.wf_write hwf6 hpn _
    · apply heap.cellsSafe_write hs6
      constructor
      · intro z hz
        simp only [heap.childrenOf, List.mem_cons, List.not_mem_nil,
          or_false] at hz
        rcases hz with rfl | rfl
        · exact ⟨ht, htn⟩
        · exact hc6 _ (by simp [heap.childrenOf])
      · exact hq6
  · rw [if_neg hplc]
    refine ⟨?_, ?_, ?_, ?_⟩
    · intro x hPx
      have hxp : x ≠ p := fun e => hp (e ▸ hPx)
      rw [heap.mem_write, if_neg hxp]
      exact hfr6 x hPx
    · rw [heap.next_write]
      exact hnx6
    · exact heap.wf_write hwf6 hpn _
    · apply heap.cellsSafe_write hs6
      constructor
      · intro z hz
        simp only [heap.childrenOf, List.mem_cons, List.not_mem_nil,
          or_false] at hz
        rcases hz with rfl | rfl
        · exact hc6 _ (by simp [heap.childrenOf])
        · exact ⟨ht, htn⟩
      · exact hq6

/-- The split step writes only the displaced leaf, its parent's child
pointer and fresh cells: the protected region is untouched, the allocator
only advances, well-formedness and region safety are preserved, and the
returned interior node is outside the protected region. -/
theorem splitLeaf_frame (P : Nat → Prop) (indexBits : List Bool) (depth : Nat)
    {h : heap.Heap} {a p : Nat} (k0 v0 idx : Bytes) (c0 : hashed.Commit)
    {h7 : heap.Heap} {ni : Nat}
    (hsplit : heap.splitLeaf indexBits depth h a p k0 v0 idx c0 = some (h7, ni))
    (hwf : h.WF) (hs : heap.CellsSafe P h) (hPb : ∀ y, P y → y < h.next)
    (ha : ¬ P a) (haN : a < h.next) (hp : ¬ P p) :
    (∀ x, P x → h7.mem x = h.mem x) ∧ h.next ≤ h7.next ∧ h7.WF ∧
      heap.CellsSafe P h7 ∧ ¬ P ni := by
  obtain ⟨hfr, hnx, hwfN, hsN, hni2, hmemni⟩ :=
    newInteriorNodeH_props P h (some p) depth (indexBits.take depth) hwf hs hPb
      (fun q hq => by obtain rfl := Option.some.inj hq; exact hp)
  simp only [heap.splitLeaf, hni2, hmemni] at hsplit
  by_cases hdir : conv.GetNthBit idx depth = true
  · rw [if_pos hdir] at hsplit
    split at hsplit
    case _ pp plvl plc prc plh prh heq2 =>
      have hinj := Option.some.inj hsplit
      rw [Prod.mk.injEq] at hinj
      obtain ⟨hh7, hniEq⟩ := hinj
      subst hh7
      subst hniEq
      obtain ⟨hfr6, hnx6, hwf6, hs6⟩ := writeTwo_frame P h _ (h.next + 2) a
        (.interior (some p) depth h.next a none none)
        (.userLeaf (some (h.next + 2)) (depth + 1) k0 v0 idx c0)
        hfr hnx hwfN hsN hPb (by rw [hnx]; omega)
        (fun x hPx => by have := hPb x hPx; omega)
        haN (fun x hPx e => ha (e ▸ hPx))
        ⟨by
          intro z hz
          simp only [heap.childrenOf, List.mem_cons, List.not_mem_nil,
            or_false] at hz
          rcases hz with rfl | rfl
          · exact ⟨fun hP => absurd (hPb _ hP) (by omega), by rw [hnx]; omega⟩
          · exact ⟨ha, by rw [hnx]; omega⟩,
         by
          intro q hq
          obtain rfl := Option.some.inj hq
          exact hp⟩
        ⟨by intro z hz; simp [heap.childrenOf] at hz,
         by
          intro q hq
          obtain rfl := Option.some.inj hq
          exact fun hP => absurd (hPb _ hP) (by omega)⟩
      obtain ⟨g1, g2, g3, g4⟩ := parentRewire_frame P h _ p (h.next + 2) a
        pp plvl plc prc plh prh hfr6 (by rw [hnx6]; omega) hwf6 hs6 hp
        (fun hP => absurd (hPb _ hP) (by omega)) (by rw [hnx6]; omega) heq2
      exact ⟨g1, g2, g3, g4, fun hP => absurd (hPb _ hP) (by omega)⟩
    case _ => exact Option.noConfusion hsplit
  · rw [if_neg hdir] at hsplit
    split at hsplit
    case _ pp plvl plc prc plh prh heq2 =>
      have hinj := Option.some.inj hsplit
      rw [Prod.mk.injEq] at hinj
      obtain ⟨hh7, hniEq⟩ := hinj
      subst hh7
      subst hniEq
      obtain ⟨hfr6, hnx6, hwf6, hs6⟩ := writeTwo_frame P h _ (h.next + 2) a
        (.interior (some p) depth a (h.next + 1) none none)
        (.userLeaf (some (h.next + 2)) (depth + 1) k0 v0 idx c0)
        hfr hnx hwfN hsN hPb (by rw [hnx]; omega)
        (fun x hPx => by have := hPb x hPx; omega)
        haN (fun x hPx e => ha (e ▸ hPx))
        ⟨by
          intro z hz
          simp only [heap.childrenOf, List.mem_cons, List.not_mem_nil,
            or_false] at hz
          rcases hz with rfl | rfl
          · exact ⟨ha, by rw [hnx]; omega⟩
          · exact ⟨fun hP => absurd (hPb _ hP) (by omega), by rw [hnx]; omega⟩,
         by
          intro q hq
          obtain rfl := Option.some.inj hq
          exact hp⟩
        ⟨by intro z hz; simp [heap.childrenOf] at hz,
         by
          intro q hq
          obtain rfl := Option.some.inj hq
          exact fun hP => absurd (hPb _ hP) (by omega)⟩
      obtain ⟨g1, g2, g3, g4⟩ := parentRewire_frame P h _ p (h.next + 2) a
        pp plvl plc prc plh prh hfr6 (by rw [hnx6]; omega) hwf6 hs6 hp
        (fun hP => absurd (hPb _ hP) (by omega)) (by rw [hnx6]; omega) heq2
      exact ⟨g1, g2, g3, g4, fun hP => absurd (hPb _ hP) (by omega)⟩
    case _ => exact Option.noConfusion hsplit


/-- The frame property of heap insertion: starting from a node outside the
protected region `P`, in a well-formed heap whose ¬`P` cells only point at
¬`P` cells, insertion never writes a protected address; the allocator only
advances, and well-formedness and region safety are preserved. -/
theorem insertH_frame (P : Nat → Prop) (indexBits : List Bool)
    (key value index : Bytes) (c : hashed.Commit) (la : Nat) :
    ∀ (fuel depth : Nat) (h : heap.Heap) (a : Nat) (h' : heap.Heap),
      heap.insertH indexBits key value index c la fuel depth h a = some h' →
      h.WF → heap.CellsSafe P h → (∀ y, P y → y < h.next) →
      ¬ P a → ¬ P la → la < h.next →
      (∀ x, P x → h'.mem x = h.mem x) ∧ h.next ≤ h'.next ∧ h'.WF ∧
        heap.CellsSafe P h' ∧ (∀ y, P y → y < h'.next) := by
  intro fuel
  induction fuel with
  | zero =>
    intro depth h a h' hins
    simp [heap.insertH] at hins
  | succ fuel ih =>
    intro depth h a h' hins hwf hs hPb ha hla hlaN
    cases hmem : h.mem a with
    | none => simp [heap.insertH, hmem] at hins
    | some cell =>
      have haN : a < h.next := heap.lt_next_of_mem hwf hmem
      cases cell with
      | empty plvl pidx => simp [heap.insertH, hmem] at hins
      | userLeaf par lvl k0 v0 idx c0 =>
        obtain ⟨hch0, hpq0⟩ := hs a _ ha hmem
        by_cases hidx : idx = index
        · simp only [heap.insertH, hmem, if_pos hidx] at hins
          obtain rfl := Option.some.inj hins
          refine ⟨?_, ?_, ?_, ?_, ?_⟩
          · intro x hPx
            have hxa : x ≠ a := fun e => ha (e ▸ hPx)
            rw [heap.mem_write, if_neg hxa]
          · rw [heap.next_write]
          · exact heap.wf_write hwf haN _
          · refine heap.cellsSafe_write hs ⟨?_, ?_⟩ a
            · intro z hz
              simp [heap.childrenOf] at hz
            · intro q hq
              exact hpq0 q hq
          · intro y hPy
            rw [heap.next_write]
            exact hPb y hPy
        · cases par with
          | none => simp [heap.insertH, hmem, if_neg hidx] at hins
          | some p =>
            simp only [heap.insertH, hmem, if_neg hidx] at hins
            have hp : ¬ P p := hpq0 p rfl
            cases hsp : heap.splitLeaf indexBits depth h a p k0 v0 idx c0 with
            | none => simp [hsp] at hins
            | some hni =>
              simp only [hsp] at hins
              obtain ⟨f1, f2, f3, f4, f5⟩ :=
                splitLeaf_frame P indexBits depth k0 v0 idx c0 hsp hwf hs hPb
                  ha haN hp
              obtain ⟨g1, g2, g3, g4, g5⟩ := ih depth hni.1 hni.2 h' hins
                f3 f4 (fun y hPy => Nat.lt_of_lt_of_le (hPb y hPy) f2) f5 hla
                (Nat.lt_of_lt_of_le hlaN f2)
              exact ⟨fun x hPx => (g1 x hPx).trans (f1 x hPx),
                Nat.le_trans f2 g2, g3, g4, g5⟩
      | interior par lvl lc rc lh rh =>
        obtain ⟨hch0, hpq0⟩ := hs a _ ha hmem
        have hlcS := hch0 lc (by simp [heap.childrenOf])
        have hrcS := hch0 rc (by simp [heap.childrenOf])
        by_cases hdir : indexBits.getD depth false = true
        · simp only [heap.insertH, hmem, if_pos hdir] at hins
          have hwf1 : (h.write a (.interior par lvl lc rc lh none)).WF :=
            heap.wf_write hwf haN _
          have hs1 : heap.CellsSafe P (h.write a (.interior par lvl lc rc lh none)) := by
            refine heap.cellsSafe_write hs ⟨?_, ?_⟩ a
            · intro z hz
              exact hch0 z hz
            · intro q hq
              exact hpq0 q hq
          have hfr1 : ∀ x, P x →
              (h.write a (.interior par lvl lc rc lh none)).mem x = h.mem x := by
            intro x hPx
            have hxa : x ≠ a := fun e => ha (e ▸ hPx)
            rw [heap.mem_write, if_neg hxa]
          cases hrc2 : (h.write a (.interior par lvl lc rc lh none)).mem rc with
          | none => simp [hrc2] at hins
          | some rcell =>
            cases rcell with
            | empty elvl eidx =>
              simp only [hrc2] at hins
              obtain rfl := Option.some.inj hins
              refine ⟨?_, ?_, ?_, ?_, ?_⟩
              · intro x hPx
                have hxa : x ≠ a := fun e => ha (e ▸ hPx)
                have hxla : x ≠ la := fun e => hla (e ▸ hPx)
                rw [heap.mem_write, if_neg hxla, heap.mem_write, if_neg hxa]
                exact hfr1 x hPx
              · rw [heap.next_write, heap.next_write, heap.next_write]
              · refine heap.wf_write (heap.wf_write hwf1 ?_ _) ?_ _
                · rw [heap.next_write]
                  exact haN
                · rw [heap.next_write, heap.next_write]
                  exact hlaN
              · refine heap.cellsSafe_write (heap.cellsSafe_write hs1 ⟨?_, ?_⟩ a) ⟨?_, ?_⟩ la
                · intro z hz
                  simp only [heap.childrenOf, List.mem_cons,
                    List.not_mem_nil, or_false] at hz
                  rcases hz with rfl | rfl
                  · exact ⟨hlcS.1, by rw [heap.next_write]; exact hlcS.2⟩
                  · exact ⟨hla, by rw [heap.next_write]; exact hlaN⟩
                · intro q hq
                  exact hpq0 q hq
                · intro z hz
                  simp [heap.childrenOf] at hz
                · intro q hq
                  obtain rfl := Option.some.inj hq
                  exact ha
              · intro y hPy
                rw [heap.next_write, heap.next_write, heap.next_write]
                exact hPb y hPy
            | userLeaf ulp ull ulk ulv uli ulc =>
              simp only [hrc2] at hins
              obtain ⟨g1, g2, g3, g4, g5⟩ := ih (depth + 1) _ rc h' hins
                hwf1 hs1 (fun y hPy => by rw [heap.next_write]; exact hPb y hPy)
                hrcS.1 hla (by rw [heap.next_write]; exact hlaN)
              refine ⟨fun x hPx => (g1 x hPx).trans (hfr1 x hPx), ?_, g3, g4, g5⟩
              rw [heap.next_write] at g2
              exact g2
            | interior ilp ill ilc ilr ilh ilr2 =>
              simp only [hrc2] at hins
              obtain ⟨g1, g2, g3, g4, g5⟩ := ih (depth + 1) _ rc h' hins
                hwf1 hs1 (fun y hPy => by rw [heap.next_write]; exact hPb y hPy)
                hrcS.1 hla (by rw [heap.next_write]; exact hlaN)
              refine ⟨fun x hPx => (g1 x hPx).trans (hfr1 x hPx), ?_, g3, g4, g5⟩
              rw [heap.next_write] at g2
              exact g2
        · simp only [heap.insertH, hmem, if_neg hdir] at hins
          have hwf1 : (h.write a (.interior par lvl lc rc none rh)).WF :=
            heap.wf_write hwf haN _
          have hs1 : heap.CellsSafe P (h.write a (.interior par lvl lc rc none rh)) := by
            refine heap.cellsSafe_write hs ⟨?_, ?_⟩ a
            · intro z hz
              exact hch0 z hz
            · intro q hq
              exact hpq0 q hq
          have hfr1 : ∀ x, P x →
              (h.write a (.interior par lvl lc rc none rh)).mem x = h.mem x := by
            intro x hPx
            have hxa : x ≠ a := fun e => ha (e ▸ hPx)
            rw [heap.mem_write, if_neg hxa]
          cases hlc2 : (h.write a (.interior par lvl lc rc none rh)).mem lc with
          | none => simp [hlc2] at hins
          | some lcell =>
            cases lcell with
            | empty elvl eidx =>
              simp only [hlc2] at hins
              obtain rfl := Option.some.inj hins
              refine ⟨?_, ?_, ?_, ?_, ?_⟩
              · intro x hPx
                have hxa : x ≠ a := fun e => ha (e ▸ hPx)
                have hxla : x ≠ la := fun e => hla (e ▸ hPx)
                rw [heap.mem_write, if_neg hxla, heap.mem_write, if_neg hxa]
                exact hfr1 x hPx
              · rw [heap.next_write, heap.next_write, heap.next_write]
              · refine heap.wf_write (heap.wf_write hwf1 ?_ _) ?_ _
                · rw [heap.next_write]
                  exact haN
                · rw [heap.next_write, heap.next_write]
                  exact hlaN
              · refine heap.cellsSafe_write (heap.cellsSafe_write hs1 ⟨?_, ?_⟩ a) ⟨?_, ?_⟩ la
                · intro z hz
                  simp only [heap.childrenOf, List.mem_cons,
                    List.not_mem_nil, or_false] at hz
                  rcases hz with rfl | rfl
                  · exact ⟨hla, by rw [heap.next_write]; exact hlaN⟩
                  · exact ⟨hrcS.1, by rw [heap.next_write]; exact hrcS.2⟩
                · intro q hq
                  exact hpq0 q hq
                · intro z hz
                  simp [heap.childrenOf] at hz
                · intro q hq
                  obtain rfl := Option.some.inj hq
                  exact ha
              · intro y hPy
                rw [heap.next_write, heap.next_write, heap.next_write]
                exact hPb y hPy
            | userLeaf ulp ull ulk ulv uli ulc =>
              simp only [hlc2] at hins
              obtain ⟨g1, g2, g3, g4, g5⟩ := ih (depth + 1) _ lc h' hins
                hwf1 hs1 (fun y hPy => by rw [heap.next_write]; exact hPb y hPy)
                hlcS.1 hla (by rw [heap.next_write]; exact hlaN)
              refine ⟨fun x hPx => (g1 x hPx).trans (hfr1 x hPx), ?_, g3, g4, g5⟩
              rw [heap.next_write] at g2
              exact g2
            | interior ilp ill ilc ilr ilh ilr2 =>
              simp only [hlc2] at hins
              obtain ⟨g1, g2, g3, g4, g5⟩ := ih (depth + 1) _ lc h' hins
                hwf1 hs1 (fun y hPy => by rw [heap.next_write]; exact hPb y hPy)
                hlcS.1 hla (by rw [heap.next_write]; exact hlaN)
              refine ⟨fun x hPx => (g1 x hPx).trans (hfr1 x hPx), ?_, g3, g4, g5⟩
              rw [heap.next_write] at g2
              exact g2

/-- `(h.alloc n).2` is the pre-allocation `next`. -/
theorem snd_alloc (h : heap.Heap) (n : heap.HNode) : (h.alloc n).2 = h.next := rfl

/-- The frame property of `SetH`: a `Set` through a root outside the
protected region never writes a protected address. -/
theorem setH_frame (P : Nat → Prop) (commitHash : hashed.CommitHashFn)
    (salt : Bytes) {h : heap.Heap} {t : heap.HTree}
    (index key value : Bytes) {h' : heap.Heap}
    (hset : heap.SetH commitHash salt h t index key value = some h')
    (hwf : h.WF) (hs : heap.CellsSafe P h) (hPb : ∀ y, P y → y < h.next)
    (hroot : ¬ P t.root) :
    (∀ x, P x → h'.mem x = h.mem x) ∧ h.next ≤ h'.next ∧ h'.WF ∧
      heap.CellsSafe P h' ∧ (∀ y, P y → y < h'.next) := by
  simp only [heap.SetH, snd_alloc] at hset
  obtain ⟨g1, g2, g3, g4, g5⟩ := insertH_frame P (conv.ToBits index) key value
    index (hashed.NewCommit commitHash salt [key, value]) h.next _ 0 _ t.root h'
    hset (heap.wf_alloc hwf _)
    (heap.cellsSafe_alloc hs
      ⟨by intro z hz; simp [heap.childrenOf] at hz,
       by intro q hq; exact Option.noConfusion hq⟩)
    (fun y hPy => by rw [heap.next_alloc]; have := hPb y hPy; omega)
    hroot (fun hP => absurd (hPb _ hP) (by omega))
    (by rw [heap.next_alloc]; omega)
  refine ⟨?_, ?_, g3, g4, g5⟩
  · intro x hPx
    rw [g1 x hPx, heap.mem_alloc,
      if_neg (show x ≠ h.next from fun e => absurd (hPb x hPx) (by omega))]
  · rw [heap.next_alloc] at g2
    omega

/-- The frame property of a sequence of `Set` operations. -/
theorem applySets_frame (P : Nat → Prop) (commitHash : hashed.CommitHashFn) :
    ∀ (ops : List (Bytes × Bytes × Bytes × Bytes)) (h : heap.Heap)
      (t : heap.HTree) (h' : heap.Heap),
      heap.applySets commitHash h t ops = some h' →
      h.WF → heap.CellsSafe P h → (∀ y, P y → y < h.next) → ¬ P t.root →
      (∀ x, P x → h'.mem x = h.mem x) ∧ h.next ≤ h'.next ∧ h'.WF ∧
        heap.CellsSafe P h' ∧ (∀ y, P y → y < h'.next) := by
  intro ops
  induction ops with
  | nil =>
    intro h t h' happ hwf hs hPb hroot
    obtain rfl := Option.some.inj happ
    exact ⟨fun x _ => rfl, Nat.le_refl _, hwf, hs, hPb⟩
  | cons op rest ih =>
    intro h t h' happ hwf hs hPb hroot
    obtain ⟨salt, index, key, value⟩ := op
    simp only [heap.applySets] at happ
    cases hset : heap.SetH commitHash salt h t index key value with
    | none => simp [hset] at happ
    | some h1 =>
      simp only [hset] at happ
      obtain ⟨f1, f2, f3, f4, f5⟩ := setH_frame P commitHash salt index key
        value hset hwf hs hPb hroot
      obtain ⟨g1, g2, g3, g4, g5⟩ := ih h1 t h' happ f3 f4 f5 hroot
      exact ⟨fun x hPx => (g1 x hPx).trans (f1 x hPx), Nat.le_trans f2 g2,
        g3, g4, g5⟩

/-- Properties of `cloneNode`: it reads the source tree and writes only
fresh cells; the returned address and every cell it allocates lie in the
fresh range, their children point into the fresh range, and their parents
are either the passed parent or in the fresh range. -/
theorem cloneNode_props :
    ∀ (fuel : Nat) (h : heap.Heap) (a : Nat) (parent : Option Nat)
      (h' : heap.Heap) (r : Nat),
      heap.cloneNode fuel h a parent = some (h', r) → h.WF →
      (∀ x, x < h.next → h'.mem x = h.mem x) ∧ h.next ≤ h'.next ∧ h'.WF ∧
        a < h.next ∧ h.next ≤ r ∧ r < h'.next ∧
        (∀ x, h.next ≤ x → x < h'.next →
          ∃ cell, h'.mem x = some cell ∧
            (∀ z ∈ heap.childrenOf cell, h.next ≤ z ∧ z < h'.next) ∧
            (∀ q, heap.parentOf cell = some q →
              parent = some q ∨ (h.next ≤ q ∧ q < h'.next))) := by
  intro fuel
  induction fuel with
  | zero =>
    intro h a parent h' r hcl
    simp [heap.cloneNode] at hcl
  | succ fuel ih =>
    intro h a parent h' r hcl hwf
    cases hmem : h.mem a with
    | none => simp [heap.cloneNode, hmem] at hcl
    | some cell =>
      have haN : a < h.next := heap.lt_next_of_mem hwf hmem
      cases cell with
      | userLeaf par lvl k v i c =>
        simp only [heap.cloneNode, hmem] at hcl
        have hinj := Option.some.inj hcl
        rw [Prod.mk.injEq] at hinj
        obtain ⟨hh', hr⟩ := hinj
        subst hh'
        subst hr
        rw [snd_alloc]
        refine ⟨?_, ?_, heap.wf_alloc hwf _, haN, Nat.le_refl _, ?_, ?_⟩
        · intro x hx
          rw [heap.mem_alloc, if_neg (show x ≠ h.next by omega)]
        · rw [heap.next_alloc]
          omega
        · rw [heap.next_alloc]
          omega
        · intro x hx1 hx2
          rw [heap.next_alloc] at hx2
          have hxe : x = h.next := by omega
          refine ⟨_, by rw [heap.mem_alloc, if_pos hxe], ?_, ?_⟩
          · intro z hz
            simp [heap.childrenOf] at hz
          · intro q hq
            exact Or.inl hq
      | empty par lvl i =>
        simp only [heap.cloneNode, hmem] at hcl
        have hinj := Option.some.inj hcl
        rw [Prod.mk.injEq] at hinj
        obtain ⟨hh', hr⟩ := hinj
        subst hh'
        subst hr
        rw [snd_alloc]
        refine ⟨?_, ?_, heap.wf_alloc hwf _, haN, Nat.le_refl _, ?_, ?_⟩
        · intro x hx
          rw [heap.mem_alloc, if_neg (show x ≠ h.next by omega)]
        · rw [heap.next_alloc]
          omega
        · rw [heap.next_alloc]
          omega
        · intro x hx1 hx2
          rw [heap.next_alloc] at hx2
          have hxe : x = h.next := by omega
          refine ⟨_, by rw [heap.mem_alloc, if_pos hxe], ?_, ?_⟩
          · intro z hz
            simp [heap.childrenOf] at hz
          · intro q hq
            exact Or.inl hq
      | interior par lvl lc rc lh rh =>
        simp only [heap.cloneNode, hmem, snd_alloc] at hcl
        cases hcl1 : heap.cloneNode fuel
            (h.alloc (.interior parent lvl 0 0 (merkletree.copyOfBs lh)
              (merkletree.copyOfBs rh))).1 lc (some h.next) with
        | none => simp [hcl1] at hcl
        | some pr1 =>
          obtain ⟨pr1h, pr1r⟩ := pr1
          simp only [hcl1] at hcl
          cases hcl2 : heap.cloneNode fuel pr1h rc (some h.next) with
          | none => simp [hcl2] at hcl
          | some pr2 =>
            obtain ⟨pr2h, pr2r⟩ := pr2
            simp only [hcl2] at hcl
            have hinj := Option.some.inj hcl
            rw [Prod.mk.injEq] at hinj
            obtain ⟨hh', hr⟩ := hinj
            subst hh'
            subst hr
            obtain ⟨f1, f2, f3, _, f5, f6, f7⟩ :=
              ih _ lc (some h.next) pr1h pr1r hcl1 (heap.wf_alloc hwf _)
            obtain ⟨g1, g2, g3, _, g5, g6, g7⟩ :=
              ih pr1h rc (some h.next) pr2h pr2r hcl2 f3
            rw [heap.next_alloc] at f2 f5
            refine ⟨?_, ?_, ?_, haN, ?_, ?_, ?_⟩
            · intro x hx
              rw [heap.mem_write, if_neg (show x ≠ h.next by omega),
                g1 x (by omega), f1 x (by rw [heap.next_alloc]; omega),
                heap.mem_alloc, if_neg (show x ≠ h.next by omega)]
            · rw [heap.next_write]
              omega
            · exact heap.wf_write g3 (by omega) _
            · omega
            · rw [heap.next_write]
              omega
            · intro x hx1 hx2
              rw [heap.next_write] at hx2
              by_cases hxn : x = h.next
              · refine ⟨_, by rw [heap.mem_write, if_pos hxn], ?_, ?_⟩
                · intro z hz
                  simp only [heap.childrenOf, List.mem_cons,
                    List.not_mem_nil, or_false] at hz
                  rw [heap.next_write]
                  rcases hz with rfl | rfl
                  · constructor <;> omega
                  · constructor <;> omega
                · intro q hq
                  exact Or.inl hq
              · rw [heap.mem_write, if_neg hxn]
                by_cases hxr : x < pr1h.next
                · obtain ⟨cell, hcell, hcc, hcp⟩ := f7 x (by
                    rw [heap.next_alloc]; omega) hxr
                  refine ⟨cell, by rw [g1 x hxr]; exact hcell, ?_, ?_⟩
                  · intro z hz
                    obtain ⟨hz1, hz2⟩ := hcc z hz
                    rw [heap.next_alloc] at hz1
                    rw [heap.next_write]
                    constructor <;> omega
                  · intro q hq
                    rcases hcp q hq with hq1 | ⟨hq2, hq3⟩
                    · obtain rfl := Option.some.inj hq1
                      right
                      rw [heap.next_write]
                      constructor <;> omega
                    · rw [heap.next_alloc] at hq2
                      right
                      rw [heap.next_write]
                      constructor <;> omega
                · obtain ⟨cell, hcell, hcc, hcp⟩ := g7 x (by omega) (by omega)
                  refine ⟨cell, hcell, ?_, ?_⟩
                  · intro z hz
                    obtain ⟨hz1, hz2⟩ := hcc z hz
                    rw [heap.next_write]
                    constructor <;> omega
                  · intro q hq
                    rcases hcp q hq with hq1 | ⟨hq2, hq3⟩
                    · obtain rfl := Option.some.inj hq1
                      right
                      rw [heap.next_write]
                      constructor <;> omega
                    · right
                      rw [heap.next_write]
                      constructor <;> omega

/-- Properties of `cloneTree`: old cells unchanged, the clone's root and
every cell of the clone lie in the fresh range, and the clone's cells
point (children and parents) only into the fresh range. -/
theorem cloneTree_props (fuel : Nat) (h : heap.Heap) (t : heap.HTree)
    {h' : heap.Heap} {tB : heap.HTree}
    (hcl : heap.cloneTree fuel h t = some (h', tB)) (hwf : h.WF) :
    (∀ x, x < h.next → h'.mem x = h.mem x) ∧ h.next ≤ h'.next ∧ h'.WF ∧
      t.root < h.next ∧ h.next ≤ tB.root ∧ tB.root < h'.next ∧
      (∀ x, h.next ≤ x → x < h'.next →
        ∃ cell, h'.mem x = some cell ∧
          (∀ z ∈ heap.childrenOf cell, h.next ≤ z ∧ z < h'.next) ∧
          (∀ q, heap.parentOf cell = some q → h.next ≤ q ∧ q < h'.next)) ∧
      tB.nonce = t.nonce := by
  simp only [heap.cloneTree] at hcl
  cases hcn : heap.cloneNode fuel h t.root none with
  | none => simp [hcn] at hcl
  | some pr =>
    obtain ⟨h2, r⟩ := pr
    simp only [hcn] at hcl
    have hinj := Option.some.inj hcl
    rw [Prod.mk.injEq] at hinj
    obtain ⟨hh, ht⟩ := hinj
    subst hh
    subst ht
    obtain ⟨f1, f2, f3, f4, f5, f6, f7⟩ :=
      cloneNode_props fuel h t.root none h2 r hcn hwf
    refine ⟨f1, f2, f3, f4, f5, f6, ?_, rfl⟩
    intro x hx1 hx2
    obtain ⟨cell, hcell, hcc, hcp⟩ := f7 x hx1 hx2
    refine ⟨cell, hcell, hcc, ?_⟩
    intro q hq
    rcases hcp q hq with hq1 | hq2
    · exact Option.noConfusion hq1
    · exact hq2

/-- Traversals that stay inside a closed region only depend on the
region's cells: the leaf list is unchanged by heap modifications outside
the region. -/
theorem leafList_agree (Q : Nat → Prop) (h h' : heap.Heap)
    (hcl : heap.RegionClosed Q h) (hag : ∀ x, Q x → h'.mem x = h.mem x) :
    ∀ (fuel : Nat) (a : Nat), Q a →
      heap.leafList h' fuel a = heap.leafList h fuel a := by
  intro fuel
  induction fuel with
  | zero => intro a hQ; rfl
  | succ fuel ih =>
    intro a hQ
    simp only [heap.leafList, hag a hQ]
    cases hmem : h.mem a with
    | none => rfl
    | some cell =>
      cases cell with
      | interior par lvl lc rc lh rh =>
        have hlc := hcl a _ hQ hmem lc (by simp [heap.childrenOf])
        have hrc := hcl a _ hQ hmem rc (by simp [heap.childrenOf])
        simp only [ih lc hlc, ih rc hrc]
      | userLeaf par lvl k v i c => rfl
      | empty par lvl i => rfl

/-- Same for the recomputed root hash. -/
theorem hashH_agree (digest : DigestFn) (nonce : Bytes) (Q : Nat → Prop)
    (h h' : heap.Heap)
    (hcl : heap.RegionClosed Q h) (hag : ∀ x, Q x → h'.mem x = h.mem x) :
    ∀ (fuel : Nat) (a : Nat), Q a →
      heap.hashH digest nonce h' fuel a = heap.hashH digest nonce h fuel a := by
  intro fuel
  induction fuel with
  | zero => intro a hQ; rfl
  | succ fuel ih =>
    intro a hQ
    simp only [heap.hashH, hag a hQ]
    cases hmem : h.mem a with
    | none => rfl
    | some cell =>
      cases cell with
      | interior par lvl lc rc lh rh =>
        have hlc := hcl a _ hQ hmem lc (by simp [heap.childrenOf])
        have hrc := hcl a _ hQ hmem rc (by simp [heap.childrenOf])
        simp only [ih lc hlc, ih rc hrc]
      | userLeaf par lvl k v i c => rfl
      | empty par lvl i => rfl

/-- Global well-formedness of the initial heap: all allocated cells'
pointer fields (children and parent) point below the allocator. -/
def HeapOK (h : heap.Heap) : Prop :=
  h.WF ∧ ∀ x cell, h.mem x = some cell →
    (∀ z ∈ heap.childrenOf cell, z < h.next) ∧
    (∀ q, heap.parentOf cell = some q → q < h.next)

/-- C9: clone isolation.  After `Clone`, any sequence of `Set` operations
applied through one of the two roots (the original tree `t` or the clone
`tB`) leaves every observable of the other tree unchanged: the level, key,
value, index and commitment of every user leaf reachable from the other
root, and its recomputed root hash, are identical before and after.  (The
other tree's struct fields — nonce, root pointer, stored hash — live in
the `HTree` value, which `Set` never touches; the clone's nonce equals the
original's by construction.)  The heap hypotheses say the initial heap is
well formed: allocated cells point only at allocated cells. -/
theorem clone_isolation (commitHash : hashed.CommitHashFn) (digest : DigestFn)
    (h₀ : heap.Heap) (t : heap.HTree) (cloneFuel : Nat)
    {h₁ : heap.Heap} {tB : heap.HTree}
    (hok : HeapOK h₀)
    (hclone : heap.cloneTree cloneFuel h₀ t = some (h₁, tB))
    (ops : List (Bytes × Bytes × Bytes × Bytes)) :
    (∀ h₂, heap.applySets commitHash h₁ t ops = some h₂ →
      ∀ fuel, heap.leafList h₂ fuel tB.root = heap.leafList h₁ fuel tB.root ∧
        heap.hashH digest tB.nonce h₂ fuel tB.root =
          heap.hashH digest tB.nonce h₁ fuel tB.root) ∧
    (∀ h₂, heap.applySets commitHash h₁ tB ops = some h₂ →
      ∀ fuel, heap.leafList h₂ fuel t.root = heap.leafList h₁ fuel t.root ∧
        heap.hashH digest t.nonce h₂ fuel t.root =
          heap.hashH digest t.nonce h₁ fuel t.root) := by
  obtain ⟨hwf0, hglob⟩ := hok
  obtain ⟨c1, c2, c3, c4, c5, c6, c7, c8⟩ :=
    cloneTree_props cloneFuel h₀ t hclone hwf0
  constructor
  · intro h₂ happ fuel
    have hsafe : heap.CellsSafe (fun x => h₀.next ≤ x ∧ x < h₁.next) h₁ := by
      intro x cell hx hcell
      by_cases hxlt : x < h₀.next
      · rw [c1 x hxlt] at hcell
        obtain ⟨hc, hq⟩ := hglob x cell hcell
        constructor
        · intro z hz
          have hzb := hc z hz
          exact ⟨fun hPz => by omega, by omega⟩
        · intro q hq2
          have hqb := hq q hq2
          exact fun hPq => by omega
      · have hx2 : h₁.next ≤ x := by omega
        rw [c3 x hx2] at hcell
        exact Option.noConfusion hcell
    have hroot : ¬ (h₀.next ≤ t.root ∧ t.root < h₁.next) := by omega
    obtain ⟨g1, g2, g3, g4, g5⟩ := applySets_frame
      (fun x => h₀.next ≤ x ∧ x < h₁.next) commitHash ops h₁ t h₂ happ c3
      hsafe (fun y hPy => hPy.2) hroot
    have hQcl : heap.RegionClosed (fun x => h₀.next ≤ x ∧ x < h₁.next) h₁ := by
      intro x cell hQ hcell z hz
      obtain ⟨cell', hcell', hcc, hcp⟩ := c7 x hQ.1 hQ.2
      have hce : cell' = cell := Option.some.inj (hcell'.symm.trans hcell)
      subst hce
      exact hcc z hz
    constructor
    · exact leafList_agree _ h₁ h₂ hQcl g1 fuel tB.root ⟨c5, c6⟩
    · exact hashH_agree digest tB.nonce _ h₁ h₂ hQcl g1 fuel tB.root ⟨c5, c6⟩
  · intro h₂ happ fuel
    have hsafe : heap.CellsSafe (fun x => x < h₀.next) h₁ := by
      intro x cell hx hcell
      by_cases hxlt : x < h₁.next
      · obtain ⟨cell', hcell', hcc, hcp⟩ := c7 x (by omega) hxlt
        have hce : cell' = cell := Option.some.inj (hcell'.symm.trans hcell)
        subst hce
        constructor
        · intro z hz
          have hzb := hcc z hz
          exact ⟨by omega, hzb.2⟩
        · intro q hq
          have hqb := hcp q hq
          omega
      · rw [c3 x (by omega)] at hcell
        exact Option.noConfusion hcell
    have hroot : ¬ tB.root < h₀.next := by omega
    obtain ⟨g1, g2, g3, g4, g5⟩ := applySets_frame
      (fun x => x < h₀.next) commitHash ops h₁ tB h₂ happ c3
      hsafe (fun y hPy => by omega) hroot
    have hQcl : heap.RegionClosed (fun x => x < h₀.next) h₁ := by
      intro x cell hQ hcell z hz
      rw [c1 x hQ] at hcell
      exact (hglob x cell hcell).1 z hz
    constructor
    · exact leafList_agree _ h₁ h₂ hQcl g1 fuel t.root c4
    · exact hashH_agree digest t.nonce _ h₁ h₂ hQcl g1 fuel t.root c4

/-- A concrete three-cell heap: an interior root at 0 with empty children
at 1 and 2 (the empty tree laid out in memory). -/
def c9mem : Nat → Option heap.HNode := fun a =>
  if a = 0 then some (.interior none 0 1 2 none none)
  else if a = 1 then some (.empty (some 0) 1 (conv.ToBytes [false]))
  else if a = 2 then some (.empty (some 0) 1 (conv.ToBytes [true]))
  else none

/-- The concrete heap value. -/
def c9h : heap.Heap := { mem := c9mem, next := 3 }

/-- The concrete tree struct rooted at cell 0. -/
def c9t : heap.HTree := { nonce := [5], root := 0, hash := none }

/-- The result of cloning the concrete tree. -/
def c9clone : heap.Heap × heap.HTree :=
  (heap.cloneTree 4 c9h c9t).getD (c9h, c9t)

/-- One concrete `Set` operation (salt, index, key, value). -/
def c9ops : List (Bytes × Bytes × Bytes × Bytes) := [([1], [0], [], [7])]

/-- The concrete heap is globally well formed. -/
theorem c9h_ok : HeapOK c9h := by
  constructor
  · intro y hy
    simp only [c9h] at hy
    simp only [c9h, c9mem]
    rw [if_neg (show y ≠ 0 by omega), if_neg (show y ≠ 1 by omega),
      if_neg (show y ≠ 2 by omega)]
  · intro x cell hm
    simp only [c9h, c9mem] at hm
    split_ifs at hm with h1 h2 h3
    · obtain rfl := Option.some.inj hm
      constructor
      · intro z hz
        simp only [heap.childrenOf, List.mem_cons, List.not_mem_nil,
          or_false] at hz
        simp only [c9h]
        rcases hz with rfl | rfl <;> omega
      · intro q hq
        exact Option.noConfusion hq
    · obtain rfl := Option.some.inj hm
      constructor
      · intro z hz
        simp [heap.childrenOf] at hz
      · intro q hq
        obtain rfl := Option.some.inj hq
        simp only [c9h]
        omega
    · obtain rfl := Option.some.inj hm
      constructor
      · intro z hz
        simp [heap.childrenOf] at hz
      · intro q hq
        obtain rfl := Option.some.inj hq
        simp only [c9h]
        omega

theorem clone_isolation_witness :
    (∀ h₂, heap.applySets commitHashM c9clone.1 c9t c9ops = some h₂ →
      ∀ fuel, heap.leafList h₂ fuel c9clone.2.root =
          heap.leafList c9clone.1 fuel c9clone.2.root ∧
        heap.hashH digestM c9clone.2.nonce h₂ fuel c9clone.2.root =
          heap.hashH digestM c9clone.2.nonce c9clone.1 fuel c9clone.2.root) ∧
    (∀ h₂, heap.applySets commitHashM c9clone.1 c9clone.2 c9ops = some h₂ →
      ∀ fuel, heap.leafList h₂ fuel c9t.root =
          heap.leafList c9clone.1 fuel c9t.root ∧
        heap.hashH digestM c9t.nonce h₂ fuel c9t.root =
          heap.hashH digestM c9t.nonce c9clone.1 fuel c9t.root) :=
  clone_isolation commitHashM digestM c9h c9t 4 c9h_ok rfl c9ops
